import Mathlib

set_option maxHeartbeats 1000000

/-
Shallow embedding of the complex-number calculator (complex_calc.js):
the Complex value class, the regex tokenizer, the shunting-yard parser,
the LISP printer, the evaluator and the randomized equivalence checker.
JavaScript doubles are modelled as exact rationals; the transcendental
polar-form branches (Math.atan2 / Math.exp / Math.log / Math.pow with
non-integer exponents) are abstracted into an oracle parameter, since
the claims under verification only concern the exact paths.
-/

namespace CalcCore

/-- Complex number as implemented by the `Complex` class: fully determined
by the pair `(re, im)`.  Components are modelled as exact rationals. -/
structure Complex where
  re : ℚ
  im : ℚ
deriving DecidableEq, Repr

/-- Error kinds of the calculator, one constructor per `throw new Error(...)`
site of the source; `astInvalid` additionally stands for the JavaScript
runtime TypeError that an out-of-arity argument access would produce. -/
inductive CalcError where
  | lexical
  | unexpectedComma
  | unbalancedParens
  | unknownOperator (t : String)
  | invalidToken (t : String)
  | insufficientArgsFunc (f : String)
  | insufficientArgsOp (o : String)
  | malformedExpression
  | invalidLiteral (t : String)
  | unboundVariable (n : String)
  | unknownFunction (n : String)
  | nonIntegerRootDegree
  | divisionByZero
  | invalidRootDegree
  | astInvalid
deriving DecidableEq, Repr

/-- Oracle for the floating-point transcendental primitives of the source
(`Math.atan2`, `Math.exp`, `Math.log`, fractional `Math.pow`, `Math.sqrt`):
`polarPow` is the polar-form branch of `Complex.pow`, `csqrt` the body of
`Complex.sqrt`, `croot` the polar computation of `Complex.root` for a
non-zero integer degree.  The claims under verification never depend on
the values these produce. -/
structure FloatOracle where
  polarPow : Complex → Complex → Complex
  csqrt : Complex → Complex
  croot : Complex → Int → Complex

namespace Complex

/-- Sum `this.re + b.re`, `this.im + b.im`. -/
def add (a b : Complex) : Complex := ⟨a.re + b.re, a.im + b.im⟩

/-- Difference, componentwise. -/
def sub (a b : Complex) : Complex := ⟨a.re - b.re, a.im - b.im⟩

/-- Product `(re*re - im*im, re*im + im*re)`. -/
def mul (a b : Complex) : Complex :=
  ⟨a.re * b.re - a.im * b.im, a.re * b.im + a.im * b.re⟩

/-- Quotient; throws DivisionByZero exactly when `b.re² + b.im² === 0`. -/
def div (a b : Complex) : Except CalcError Complex :=
  let denom := b.re * b.re + b.im * b.im
  if denom = 0 then .error .divisionByZero
  else .ok ⟨(a.re * b.re + a.im * b.im) / denom, (a.im * b.re - a.re * b.im) / denom⟩

/-- Conjugate. -/
def conj (a : Complex) : Complex := ⟨a.re, -a.im⟩

/-- Negation. -/
def neg (a : Complex) : Complex := ⟨-a.re, -a.im⟩

/-- Tolerance comparison `eq(b, tol)`: componentwise absolute difference
strictly below `tol`. -/
def eqTol (a b : Complex) (tol : ℚ) : Bool :=
  decide (|a.re - b.re| < tol) && decide (|a.im - b.im| < tol)

/-- The repeated-multiplication loop of the integer branch of `pow`:
`res = 1; for (i = 0; i < n; i++) res = res.mul(base)`. -/
def natPowLoop (base : Complex) (n : Nat) : Complex :=
  (List.range n).foldl (fun res _ => res.mul base) ⟨1, 0⟩

/-- Power `pow(b)`.  When `|b.im| < 1e-14` and `b.re` is an integer the
source computes by repeated multiplication, inverting through `div` for a
negative exponent; otherwise it uses the polar formula, here abstracted
as the oracle function `polar`. -/
def pow (polar : Complex → Complex → Complex) (a b : Complex) :
    Except CalcError Complex :=
  if |b.im| < 1 / 10 ^ 14 ∧ b.re.den = 1 then
    let n : Int := b.re.num
    if n = 0 then .ok ⟨1, 0⟩
    else
      let res := natPowLoop a n.natAbs
      if 0 < n then .ok res else div ⟨1, 0⟩ res
  else .ok (polar a b)

end Complex

/-! ## Tokenizer

`TOKEN_REGEX = /\s*([0-9]*\.?[0-9]+(?:e[+-]?\d+)?i?|[A-Za-z_]\w*|\*\*|\^|[()+\-*/,])\s*/y`
applied repeatedly with `exec`; the match loop stops at the first position
where no alternative matches, and `tokenize` fails unless the concatenated
tokens equal the whitespace-stripped input. -/

/-- Word character of the regex `\w`: letter, digit or underscore. -/
def isWordChar (c : Char) : Bool := c.isAlpha || c.isDigit || c = '_'

/-- Whitespace characters recognised by the regex `\s`: the ECMAScript
WhiteSpace and LineTerminator sets, i.e. TAB, LF, VT, FF, CR, SPACE,
NBSP (U+00A0), OGHAM SPACE MARK (U+1680), the Zs spaces U+2000..U+200A,
LINE/PARAGRAPH SEPARATOR (U+2028/U+2029), NARROW NBSP (U+202F),
MEDIUM MATHEMATICAL SPACE (U+205F), IDEOGRAPHIC SPACE (U+3000) and
ZWNBSP (U+FEFF). -/
def jsWhitespace : List Char :=
  [' ', '\t', '\n', '\r', Char.ofNat 0x0B, Char.ofNat 0x0C,
   Char.ofNat 0xA0, Char.ofNat 0x1680,
   Char.ofNat 0x2000, Char.ofNat 0x2001, Char.ofNat 0x2002, Char.ofNat 0x2003,
   Char.ofNat 0x2004, Char.ofNat 0x2005, Char.ofNat 0x2006, Char.ofNat 0x2007,
   Char.ofNat 0x2008, Char.ofNat 0x2009, Char.ofNat 0x200A,
   Char.ofNat 0x2028, Char.ofNat 0x2029, Char.ofNat 0x202F,
   Char.ofNat 0x205F, Char.ofNat 0x3000, Char.ofNat 0xFEFF]

/-- `\s` membership test used by the tokenizer model. -/
def isSpaceChar (c : Char) : Bool := decide (c ∈ jsWhitespace)

/-- Exponent part `(?:e[+-]?\d+)?` of the number alternative: greedy match
at the head of the input, `none` when it does not occur here. -/
def matchExpPart (s : List Char) : Option (List Char × List Char) :=
  if s.head? = some 'e' then
    let r1 := s.tail
    let sgn : List Char :=
      if r1.head? = some '+' ∨ r1.head? = some '-' then r1.take 1 else []
    let r2 := r1.drop sgn.length
    let d := r2.takeWhile Char.isDigit
    if d.isEmpty then none
    else some ('e' :: (sgn ++ d), r2.dropWhile Char.isDigit)
  else none

/-- Optional exponent then optional trailing `i`, appended to an already
matched mantissa `tok`. -/
def afterMantissa (tok : List Char) (r : List Char) : List Char × List Char :=
  let p :=
    match matchExpPart r with
    | some q => (tok ++ q.1, q.2)
    | none => (tok, r)
  if p.2.head? = some 'i' then (p.1 ++ ['i'], p.2.tail) else p

/-- Greedy match of the number alternative `[0-9]*\.?[0-9]+(?:e[+-]?\d+)?i?`
at the head of the input.  When the optional dot is not followed by a digit
the regex engine backtracks over it, so the match is the leading digit run
alone (this mirrors the backtracking of the JavaScript engine). -/
def matchNumber (s : List Char) : Option (List Char × List Char) :=
  let d1 := s.takeWhile Char.isDigit
  let r1 := s.dropWhile Char.isDigit
  if r1.head? = some '.' then
    let r2 := r1.tail
    let d2 := r2.takeWhile Char.isDigit
    if d2.isEmpty then
      if d1.isEmpty then none else some (d1, r1)
    else some (afterMantissa (d1 ++ '.' :: d2) (r2.dropWhile Char.isDigit))
  else if d1.isEmpty then none else some (afterMantissa d1 r1)

/-- Greedy match of the identifier alternative `[A-Za-z_]\w*`. -/
def matchIdent : List Char → Option (List Char × List Char)
  | c :: rest =>
      if c.isAlpha || c = '_' then
        some (c :: rest.takeWhile isWordChar, rest.dropWhile isWordChar)
      else none
  | [] => none

/-- Single-symbol character class `[()+\-*/,]`. -/
def isOpChar (c : Char) : Bool :=
  c = '(' || c = ')' || c = '+' || c = '-' || c = '*' || c = '/' || c = ','

/-- Symbol alternatives of the regex: `**`, `^`, or one of the characters
of the class, in that order. -/
def matchSymbol (s : List Char) : Option (List Char × List Char) :=
  if s.head? = some '*' ∧ s.tail.head? = some '*' then
    some (['*', '*'], s.tail.tail)
  else if s.head? = some '^' then some (['^'], s.tail)
  else
    match s with
    | c :: rest => if isOpChar c then some ([c], rest) else none
    | [] => none

/-- One token match at the head of the input, following the alternation
order of `TOKEN_REGEX`: number, identifier, `**`, `^`, single symbol. -/
def matchToken (s : List Char) : Option (List Char × List Char) :=
  match matchNumber s with
  | some r => some r
  | none =>
    match matchIdent s with
    | some r => some r
    | none => matchSymbol s

/-- Leading `\s*` of each regex application. -/
def dropWs (s : List Char) : List Char := s.dropWhile isSpaceChar

/-- The `while ((m = TOKEN_REGEX.exec(input)) !== null)` loop.  Every
successful match consumes at least one character, so a fuel of
`input.length + 1` (as supplied by `tokenize`) never runs out before the
loop stops by itself. -/
def scanFuel : Nat → List Char → List (List Char)
  | 0, _ => []
  | fuel + 1, s =>
    match matchToken (dropWs s) with
    | some (tok, rest) => tok :: scanFuel fuel rest
    | none => []

/-- Tokenizer: collect the matches, then fail with LexicalError unless
their concatenation equals the input with all whitespace removed. -/
def tokenize (input : String) : Except CalcError (List String) :=
  let toks := scanFuel (input.data.length + 1) input.data
  if toks.flatten = input.data.filter (fun c => !isSpaceChar c) then
    .ok (toks.map List.asString)
  else .error .lexical

/-- Anchored full match `^[0-9]*\.?[0-9]+(?:e[+-]?\d+)?i?$` used by the
parser: for this pattern the greedy unanchored match covers the whole
string exactly when the anchored match succeeds. -/
def isNumberToken (t : String) : Bool :=
  decide (matchNumber t.data = some (t.data, []))

/-- Anchored full match `^[A-Za-z_]\w*$`. -/
def isIdentifier (t : String) : Bool :=
  decide (matchIdent t.data = some (t.data, []))

/-! ## Parser (shunting-yard to AST) -/

/-- Entry of the `OPERATORS` table: precedence, associativity, arity. -/
structure OpInfo where
  prec : Nat
  assocL : Bool
  args : Nat
deriving DecidableEq, Repr

/-- The process-wide `OPERATORS` constant. -/
def OPERATORS : String → Option OpInfo
  | "+" => some ⟨2, true, 2⟩
  | "-" => some ⟨2, true, 2⟩
  | "*" => some ⟨3, true, 2⟩
  | "/" => some ⟨3, true, 2⟩
  | "**" => some ⟨5, false, 2⟩
  | "^" => some ⟨5, false, 2⟩
  | "u-" => some ⟨6, false, 1⟩
  | _ => none

/-- Item of the operator stack: the source mixes strings (operators and
the parenthesis marker) with `{type: func, name}` objects. -/
inductive StackItem where
  | str (s : String)
  | func (name : String)
deriving DecidableEq, Repr

/-- Entry of the postfix output queue: number token, variable token,
function marker, or operator string. -/
inductive RPNTok where
  | number (value : String)
  | varTok (name : String)
  | funcTok (name : String)
  | opStr (s : String)
deriving DecidableEq, Repr

/-- Move of a stack item to the output queue. -/
def rpnOf : StackItem → RPNTok
  | .str s => .opStr s
  | .func n => .funcTok n

/-- The AST node variants `literal`, `var`, `call` and `op` of the source. -/
inductive AST where
  | literal (value : String)
  | var (name : String)
  | call (name : String) (args : List AST)
  | op (o : String) (args : List AST)
deriving Repr

/-- Unary-minus disambiguation condition of the source:
`prev === null || prev === '(' || prev === ',' || (prev in OPERATORS)`. -/
def minusIsUnary (prev : Option String) : Bool :=
  prev.isNone || prev == some "(" || prev == some "," ||
    (match prev with
     | some p => (OPERATORS p).isSome
     | none => false)

/-- The pop loop run before pushing an operator: pop while the top is an
operator of higher precedence (or equal, for a left-associative incoming
operator); a parenthesis marker, a function marker, or a non-operator
string stops the loop. -/
def popOps (o1 : OpInfo) (output : List RPNTok) (ops : List StackItem) :
    List RPNTok × List StackItem :=
  match ops with
  | [] => (output, [])
  | .func _ :: _ => (output, ops)
  | .str s :: rest =>
      if s = "(" then (output, ops)
      else
        match OPERATORS s with
        | none => (output, ops)
        | some o2 =>
            if (o1.assocL ∧ o1.prec ≤ o2.prec) ∨ (¬o1.assocL ∧ o1.prec < o2.prec) then
              popOps o1 (output ++ [.opStr s]) rest
            else (output, ops)

/-- The pop loop of the comma and right-parenthesis branches: pop items to
the output until a left-parenthesis marker is on top (or the stack is
empty). -/
def popUntilParen (output : List RPNTok) (ops : List StackItem) :
    List RPNTok × List StackItem :=
  match ops with
  | [] => (output, [])
  | .str "(" :: _ => (output, ops)
  | top :: rest => popUntilParen (output ++ [rpnOf top]) rest

/-- The token loop of `parseToAST` (first pass, shunting-yard).  The head
of `ops` is the top of the operator stack; `prev` is the source's `prev`
variable; the lookahead `tokens[i+1]` is the head of the remaining list. -/
def shuntLoop : List String → List RPNTok → List StackItem → Option String →
    Except CalcError (List RPNTok × List StackItem)
  | [], output, ops, _ => .ok (output, ops)
  | t :: rest, output, ops, prev =>
    if isNumberToken t then
      shuntLoop rest (output ++ [.number t]) ops (some "number")
    else if isIdentifier t then
      if rest.head? = some "(" then
        shuntLoop rest output (.func t :: ops) (some "id")
      else
        shuntLoop rest (output ++ [.varTok t]) ops (some "id")
    else if t = "," then
      let p := popUntilParen output ops
      match p.2 with
      | [] => .error .unexpectedComma
      | _ => shuntLoop rest p.1 p.2 (some ",")
    else if t = "(" then
      shuntLoop rest output (.str "(" :: ops) (some "(")
    else if t = ")" then
      let p := popUntilParen output ops
      match p.2 with
      | [] => .error .unbalancedParens
      | _ :: ops2 =>
          match ops2 with
          | .func f :: ops3 =>
              shuntLoop rest (p.1 ++ [.funcTok f]) ops3 (some ")")
          | _ => shuntLoop rest p.1 ops2 (some ")")
    else if (OPERATORS t).isSome || t = "^" || t = "**" then
      let op := if t = "-" && minusIsUnary prev then "u-" else t
      match (OPERATORS op).orElse (fun _ => OPERATORS t) with
      | none => .error (.unknownOperator t)
      | some o1 =>
          let p := popOps o1 output ops
          shuntLoop rest p.1 (.str op :: p.2) (some op)
    else .error (.invalidToken t)

/-- Drain of the operator stack after the token loop; a leftover
parenthesis marker is unbalanced parentheses. -/
def drainOps (output : List RPNTok) : List StackItem → Except CalcError (List RPNTok)
  | [] => .ok output
  | .str "(" :: _ => .error .unbalancedParens
  | .str ")" :: _ => .error .unbalancedParens
  | top :: rest => drainOps (output ++ [rpnOf top]) rest

/-- Second pass of `parseToAST`: rebuild an AST from the postfix queue.
The head of `stack` is the top; `args.unshift(stack.pop())` restores the
left-to-right argument order.  Function arities are fixed: `root` takes 2
arguments, every other name 1. -/
def buildRPN : List RPNTok → List AST → Except CalcError (List AST)
  | [], stack => .ok stack
  | tok :: rest, stack =>
    match tok with
    | .number v => buildRPN rest (.literal v :: stack)
    | .varTok n => buildRPN rest (.var n :: stack)
    | .funcTok fn =>
        if fn = "root" then
          match stack with
          | b :: a :: s => buildRPN rest (.call fn [a, b] :: s)
          | _ => .error (.insufficientArgsFunc fn)
        else
          match stack with
          | a :: s => buildRPN rest (.call fn [a] :: s)
          | _ => .error (.insufficientArgsFunc fn)
    | .opStr o =>
        match OPERATORS o with
        | none => .error .astInvalid
        | some info =>
            if info.args = 1 then
              match stack with
              | a :: s => buildRPN rest (.op o [a] :: s)
              | _ => .error (.insufficientArgsOp o)
            else
              match stack with
              | b :: a :: s => buildRPN rest (.op o [a, b] :: s)
              | _ => .error (.insufficientArgsOp o)

/-- Full parser `parseToAST`: tokenize, shunting-yard, drain, rebuild;
exactly one AST must remain on the value stack. -/
def parseToAST (input : String) : Except CalcError AST := do
  let toks ← tokenize input
  let p ← shuntLoop toks [] [] none
  let output ← drainOps p.1 p.2
  let stack ← buildRPN output []
  match stack with
  | [a] => .ok a
  | _ => .error .malformedExpression

/-! ## AST printer and variable collection -/

mutual

/-- The LISP printer `astToLisp`: leaves print as their text, calls and
operators as `(name arg1 arg2 ...)` with single spaces. -/
def astToLisp : AST → String
  | .literal v => v
  | .var n => n
  | .call name args => "(" ++ name ++ " " ++ astToLispArgs args ++ ")"
  | .op o args => "(" ++ o ++ " " ++ astToLispArgs args ++ ")"

/-- Rendering of `node.args.map(astToLisp).join(' ')`. -/
def astToLispArgs : List AST → String
  | [] => ""
  | [a] => astToLisp a
  | a :: rest => astToLisp a ++ " " ++ astToLispArgs rest

end

mutual

/-- Occurrences of variable names in depth-first order (`collectVars`
before the `Set` deduplication). -/
def collectVarsRaw : AST → List String
  | .literal _ => []
  | .var n => [n]
  | .call _ args => collectVarsRawList args
  | .op _ args => collectVarsRawList args

/-- Occurrences of variable names in a list of subtrees. -/
def collectVarsRawList : List AST → List String
  | [] => []
  | a :: rest => collectVarsRaw a ++ collectVarsRawList rest

end

/-- Insertion-order deduplication, the iteration order of a JavaScript
`Set` built from a list. -/
def dedupFirst : List String → List String
  | [] => []
  | x :: rest => x :: (dedupFirst rest).filter (fun y => y ≠ x)

/-! ## Evaluation -/

/-- Numeric value of a digit run. -/
def digitsVal (ds : List Char) : Nat :=
  ds.foldl (fun a c => a * 10 + (c.toNat - 48)) 0

/-- Decimal-string semantics of the JavaScript `Number()` conversion on
the strings reachable here (optional sign, digits with optional dot,
optional exponent); `none` models `NaN`, and `Number("")` is `0`. -/
def jsNumber (s : String) : Option ℚ :=
  let cs := s.data
  let d1 := cs.takeWhile Char.isDigit
  let r1 := cs.dropWhile Char.isDigit
  let mant : Option (ℚ × List Char) :=
    match r1 with
    | '.' :: r2 =>
        let d2 := r2.takeWhile Char.isDigit
        if d1.isEmpty ∧ d2.isEmpty then none
        else some ((digitsVal (d1 ++ d2) : ℚ) / 10 ^ d2.length, r2.dropWhile Char.isDigit)
    | _ => if d1.isEmpty then none else some ((digitsVal d1 : ℚ), r1)
  match mant with
  | none => if cs.isEmpty then some 0 else none
  | some (m, r) =>
      match r with
      | [] => some m
      | 'e' :: r2 => jsExpo m r2
      | 'E' :: r2 => jsExpo m r2
      | _ => none
where
  /-- Exponent suffix `e`/`E` with optional sign. -/
  jsExpo (m : ℚ) : List Char → Option ℚ
    | '+' :: r3 => jsExpoDigits m r3 true
    | '-' :: r3 => jsExpoDigits m r3 false
    | r3 => jsExpoDigits m r3 true
  /-- Digits of the exponent; the whole string must be consumed. -/
  jsExpoDigits (m : ℚ) (r : List Char) (pos : Bool) : Option ℚ :=
    let d := r.takeWhile Char.isDigit
    if d.isEmpty ∨ ¬(r.dropWhile Char.isDigit).isEmpty then none
    else some (if pos then m * 10 ^ digitsVal d else m / 10 ^ digitsVal d)

/-- The `Number()` conversion including an optional leading sign
(`Number("")` is 0, handled inside `jsNumber`). -/
def jsNumberSigned (s : String) : Option ℚ :=
  match s.data with
  | '-' :: cs =>
      if cs.isEmpty then none
      else (jsNumber (List.asString cs)).map (fun q => -q)
  | '+' :: cs =>
      if cs.isEmpty then none else jsNumber (List.asString cs)
  | _ => jsNumber s

/-- Literal evaluation `parseComplexLiteral`: a token ending in `i` is an
imaginary literal (empty or bare-sign coefficient meaning ±1), otherwise
a real literal parsed with `Number()`. -/
def parseComplexLiteral (token : String) : Except CalcError Complex :=
  if token.endsWith "i" then
    let num := List.asString (token.data.dropLast)
    if num = "" ∨ num = "+" then .ok ⟨0, 1⟩
    else if num = "-" then .ok ⟨0, -1⟩
    else
      match jsNumberSigned num with
      | some q => .ok ⟨0, q⟩
      | none => .error (.invalidLiteral token)
  else
    match jsNumberSigned token with
    | some q => .ok ⟨q, 0⟩
    | none => .error (.invalidLiteral token)

/-- Environment of variable bindings, an object with unique keys. -/
def lookupEnv (env : List (String × Complex)) (n : String) : Option Complex :=
  (env.find? (fun p => p.1 = n)).map (fun p => p.2)

mutual

/-- The evaluator `evaluateAST`.  Call nodes evaluate all arguments left
to right before dispatching on the name; `root` re-evaluates its second
argument, requires its imaginary part within `1e-12` of zero, rounds the
real part (`Math.round` is floor of x+1/2), and rejects a zero degree.
Binary operators evaluate the left argument first.  `astInvalid` marks
argument accesses past the end of `args`, a TypeError in the source. -/
def evaluateAST (F : FloatOracle) (env : List (String × Complex)) :
    AST → Except CalcError Complex
  | .literal v => parseComplexLiteral v
  | .var n =>
      match lookupEnv env n with
      | some c => .ok c
      | none => .error (.unboundVariable n)
  | .call name args =>
      match evalArgs F env args with
      | .error e => .error e
      | .ok vals =>
          if name = "conj" then
            match vals with
            | x :: _ => .ok x.conj
            | [] => .error .astInvalid
          else if name = "sqrt" then
            match vals with
            | x :: _ => .ok (F.csqrt x)
            | [] => .error .astInvalid
          else if name = "root" then
            match vals, args with
            | x :: _, _ :: a1 :: _ =>
                match evaluateAST F env a1 with
                | .error e => .error e
                | .ok nVal =>
                    if 1 / 10 ^ 12 < |nVal.im| then .error .nonIntegerRootDegree
                    else
                      let n : Int := ⌊nVal.re + 1 / 2⌋
                      if n = 0 then .error .invalidRootDegree
                      else .ok (F.croot x n)
            | _, _ => .error .astInvalid
          else .error (.unknownFunction name)
  | .op o args =>
      if o = "u-" then
        match args with
        | a :: _ =>
            match evaluateAST F env a with
            | .ok v => .ok v.neg
            | .error e => .error e
        | [] => .error .astInvalid
      else
        match args with
        | a :: rest =>
            match evaluateAST F env a with
            | .error e => .error e
            | .ok x =>
                match rest with
                | b :: _ =>
                    match evaluateAST F env b with
                    | .error e => .error e
                    | .ok y =>
                        if o = "+" then .ok (x.add y)
                        else if o = "-" then .ok (x.sub y)
                        else if o = "*" then .ok (x.mul y)
                        else if o = "/" then x.div y
                        else if o = "**" then Complex.pow F.polarPow x y
                        else if o = "^" then Complex.pow F.polarPow x y
                        else .error (.unknownOperator o)
                | [] => .error .astInvalid
        | [] => .error .astInvalid

/-- Evaluation of `node.args.map(a => evaluateAST(a, env))`: left to
right, first error propagates. -/
def evalArgs (F : FloatOracle) (env : List (String × Complex)) :
    List AST → Except CalcError (List Complex)
  | [] => .ok []
  | a :: rest =>
      match evaluateAST F env a with
      | .error e => .error e
      | .ok v =>
          match evalArgs F env rest with
          | .error e => .error e
          | .ok vs => .ok (v :: vs)

end

/-- Composition `evaluate(parse(s), env)` of the two core entry points. -/
def evalParse (F : FloatOracle) (s : String) (env : List (String × Complex)) :
    Except CalcError Complex :=
  (parseToAST s).bind (evaluateAST F env)

/-! ## Equivalence checker -/

/-- Fresh random environment of one trial: each collected variable gets
`Math.random()*10 - 5` for each component, with `rand` the stream of
`Math.random()` draws and `ctr` the index of the next draw; returns the
environment and the advanced counter. -/
def mkEnv (rand : Nat → ℚ) (ctr : Nat) : List String → List (String × Complex) × Nat
  | [] => ([], ctr)
  | v :: rest =>
      let re := rand ctr * 10 - 5
      let im := rand (ctr + 1) * 10 - 5
      let p := mkEnv rand (ctr + 2) rest
      ((v, ⟨re, im⟩) :: p.1, p.2)

/-- Evaluation of both expressions inside the `try` block; the first
error thrown is caught by the `catch`. -/
def evalPair (F : FloatOracle) (env : List (String × Complex)) (a1 a2 : AST) :
    Except CalcError (Complex × Complex) :=
  match evaluateAST F env a1 with
  | .error e => .error e
  | .ok r1 =>
      match evaluateAST F env a2 with
      | .error e => .error e
      | .ok r2 => .ok (r1, r2)

/-- The trial loop `for (let t = 0; t < tries; t++)` of
`expressionsEqual`, with the catch block `t--; if (t < 0) throw e;
continue;`: after the decrement and the loop update the counter is back
at the same `t`, so an error makes the loop retry round `t` with the
next random draws, except that in round 0 the decremented counter is
negative and the error is re-thrown.  `fuel` bounds the number of loop
entries only because the retry loop of the source need not terminate;
`none` means the fuel ran out. -/
def eqLoop (F : FloatOracle) (rand : Nat → ℚ) (a1 a2 : AST) (tries : Int) (tol : ℚ)
    (vars : List String) : Nat → Int → Nat → Option (Except CalcError Bool)
  | 0, _, _ => none
  | fuel + 1, t, ctr =>
    if t < tries then
      let p := mkEnv rand ctr vars
      match evalPair F p.1 a1 a2 with
      | .error e =>
          if t - 1 < 0 then some (.error e)
          else eqLoop F rand a1 a2 tries tol vars fuel t p.2
      | .ok r =>
          if r.1.eqTol r.2 tol then eqLoop F rand a1 a2 tries tol vars fuel (t + 1) p.2
          else some (.ok false)
    else some (.ok true)

/-- The equivalence checker `expressionsEqual(ast1, ast2, tries, tol)`:
collect the union of the variables of both trees (insertion order), then
run the trial loop from round 0. -/
def expressionsEqual (F : FloatOracle) (rand : Nat → ℚ) (fuel : Nat)
    (ast1 ast2 : AST) (tries : Int) (tol : ℚ) : Option (Except CalcError Bool) :=
  let vars := dedupFirst (collectVarsRaw ast1 ++ collectVarsRaw ast2)
  eqLoop F rand ast1 ast2 tries tol vars fuel 0 0

/-- Concrete oracle instance used by witnesses; its values are irrelevant
to every theorem below (each either holds for all oracles or never
reaches the transcendental branches). -/
def F0 : FloatOracle where
  polarPow := fun _ _ => ⟨0, 0⟩
  csqrt := fun _ => ⟨0, 0⟩
  croot := fun _ _ => ⟨0, 0⟩

/-- Characters that can occur inside a token produced by the tokenizer:
word characters (letters, digits, underscore), the dot, and the symbol
characters of the regex alternatives. -/
def tokenChar (c : Char) : Bool :=
  isWordChar c || c = '.' || c = '+' || c = '-' || c = '*' || c = '/' ||
    c = '(' || c = ')' || c = ',' || c = '^'

/-- The character set named by the claim under test (C2): digits, letters,
dot, the operator symbols, whitespace and `i` — written from the claim's
own list for comparison with the behaviour of `tokenize`; note it lacks
the underscore, which the identifier alternative of `TOKEN_REGEX`
accepts. -/
def specAllowedChar (c : Char) : Bool :=
  c.isDigit || c.isAlpha || c = '.' || c = '+' || c = '-' || c = '*' ||
    c = '/' || c = '(' || c = ')' || c = ',' || c = '^' || isSpaceChar c

/-- Binary operators whose rendered prefix form happens to re-parse
(subtraction and unary minus render as `(- ...)`, which the parser reads
as unary negation; see the round-trip counterexample). -/
def binOps : List String := ["+", "*", "/", "**", "^"]

/-- Fragment of ASTs whose LISP rendering re-parses to the identical
tree: number literals, variables, and binary nodes over `binOps`, with
the proviso that a variable left operand is not directly followed by a
parenthesized right operand (the parser lookahead would then read the
variable as a function name). -/
inductive Good : AST → Prop where
  | lit (v : String) : isNumberToken v = true → Good (.literal v)
  | varG (n : String) : isIdentifier n = true → Good (.var n)
  | opG (o : String) (l r : AST) : o ∈ binOps → Good l → Good r →
      ¬((∃ n, l = AST.var n) ∧ ∃ o2 args, r = AST.op o2 args) →
      Good (.op o [l, r])

mutual

/-- Token sequence of the rendering of a fragment AST. -/
def fragTokens : AST → List String
  | .literal v => [v]
  | .var n => [n]
  | .call _ _ => []
  | .op o args => "(" :: o :: fragTokensList args ++ [")"]

/-- Token sequences of a list of subtrees, concatenated. -/
def fragTokensList : List AST → List String
  | [] => []
  | a :: rest => fragTokens a ++ fragTokensList rest

end

mutual

/-- Postfix queue the shunting-yard pass produces for a fragment AST. -/
def fragRPN : AST → List RPNTok
  | .literal v => [.number v]
  | .var n => [.varTok n]
  | .call _ _ => []
  | .op o args => fragRPNList args ++ [.opStr o]

/-- Postfix queues of a list of subtrees, concatenated. -/
def fragRPNList : List AST → List RPNTok
  | [] => []
  | a :: rest => fragRPN a ++ fragRPNList rest

end

/-- Value of the parser's `prev` variable after the tokens of a fragment
AST have been consumed. -/
def prevTag : AST → String
  | .literal _ => "number"
  | .var _ => "id"
  | _ => ")"

/-! ## Helper lemmas on list splitting -/

theorem tokenChar_of_digit {c : Char} (h : c.isDigit = true) : tokenChar c = true := by
  simp [tokenChar, isWordChar, h]

theorem tokenChar_of_word {c : Char} (h : isWordChar c = true) : tokenChar c = true := by
  simp [tokenChar, h]

theorem head_dropWhile_not (p : Char → Bool) :
    ∀ (l : List Char) {x}, (l.dropWhile p).head? = some x → p x = false := by
  intro l
  induction l with
  | nil => intro x h; simp [List.dropWhile] at h
  | cons a as ih =>
      intro x h
      rw [List.dropWhile_cons] at h
      by_cases hp : p a
      · rw [if_pos hp] at h; exact ih h
      · rw [if_neg hp] at h
        injection h with h1
        rw [← h1]
        exact Bool.not_eq_true _ ▸ (by simpa using hp)

theorem append_takeWhile_of_stop (p : Char → Bool) {A B : List Char}
    (h : A.dropWhile p ≠ []) :
    (A ++ B).takeWhile p = A.takeWhile p ∧ (A ++ B).dropWhile p = A.dropWhile p ++ B := by
  constructor
  · rw [List.takeWhile_append]
    have hne : (A.takeWhile p).length ≠ A.length := by
      intro hlen
      have := List.takeWhile_append_dropWhile p A
      have h2 : (A.takeWhile p ++ A.dropWhile p).length = A.length := by rw [this]
      rw [List.length_append] at h2
      have : (A.dropWhile p).length = 0 := by omega
      exact h (List.eq_nil_of_length_eq_zero this)
    rw [if_neg hne]
  · rw [List.dropWhile_append]
    have : (A.dropWhile p).isEmpty = false := by
      cases hA : A.dropWhile p with
      | nil => exact absurd hA h
      | cons x xs => rfl
    rw [this]
    simp

theorem append_takeWhile_of_all (p : Char → Bool) {A B : List Char}
    (h : A.dropWhile p = []) :
    (A ++ B).takeWhile p = A ++ B.takeWhile p ∧ (A ++ B).dropWhile p = B.dropWhile p := by
  have hall : ∀ a ∈ A, p a := List.dropWhile_eq_nil_iff.mp h
  exact ⟨List.takeWhile_append_of_pos hall, List.dropWhile_append_of_pos hall⟩

/-! ## Inversion and reconstruction of the token matchers -/

/-- Inversion of a successful exponent-part match: the token is
`e`, an optional sign, and a nonempty digit run; the input is the token
followed by the rest, whose head is not a digit. -/
theorem matchExpPart_some {s e r : List Char} (h : matchExpPart s = some (e, r)) :
    ∃ sgn d, (sgn = [] ∨ sgn = ['+'] ∨ sgn = ['-']) ∧ d ≠ [] ∧
      (∀ c ∈ d, c.isDigit = true) ∧ e = 'e' :: (sgn ++ d) ∧ s = e ++ r ∧
      (∀ c0, r.head? = some c0 → c0.isDigit = false) := by
  simp only [matchExpPart] at h
  by_cases he : s.head? = some 'e'
  case neg => rw [if_neg he] at h; exact absurd h (by simp)
  rw [if_pos he] at h
  obtain ⟨t1, rfl⟩ : ∃ t1, s = 'e' :: t1 := by
    cases s with
    | nil => simp at he
    | cons a as => exact ⟨as, by injection he with h1; rw [h1]⟩
  simp only [List.tail_cons] at h
  set sgn := if t1.head? = some '+' ∨ t1.head? = some '-' then t1.take 1 else []
    with hsgn
  set r2 := t1.drop sgn.length with hr2
  by_cases hd : (r2.takeWhile Char.isDigit).isEmpty
  · rw [if_pos hd] at h; exact absurd h (by simp)
  · rw [if_neg hd] at h
    injection h with h1
    injection h1 with h1 h2
    refine ⟨sgn, r2.takeWhile Char.isDigit, ?_, ?_, ?_, h1.symm, ?_, ?_⟩
    · rw [hsgn]
      split
      · next hor =>
          rcases hor with hp | hp <;> cases t1 with
          | nil => simp at hp
          | cons a as =>
              injection hp with hp
              rw [List.take_one]
              simp [hp]
      · exact Or.inl rfl
    · intro hnil; rw [hnil] at hd; exact hd rfl
    · intro c hc; exact List.mem_takeWhile_imp hc
    · have hsplit : t1 = sgn ++ r2 := by
        rw [hr2, hsgn]
        split
        · next hor =>
            cases t1 with
            | nil => rcases hor with hp | hp <;> simp at hp
            | cons a as => simp
        · simp
      rw [← h1, ← h2, hsplit]
      simp only [List.cons_append, List.append_assoc, List.cons.injEq, true_and]
      rw [List.takeWhile_append_dropWhile]
    · intro c0 hc0
      rw [← h2] at hc0
      exact head_dropWhile_not _ _ hc0

/-- Reconstruction: an exponent part followed by anything whose head is
not a digit matches back to exactly the same token. -/
theorem matchExpPart_build (sgn d rest : List Char)
    (hsgn : sgn = [] ∨ sgn = ['+'] ∨ sgn = ['-']) (hd : d ≠ [])
    (hdig : ∀ c ∈ d, c.isDigit = true)
    (hrest : ∀ c0, rest.head? = some c0 → c0.isDigit = false) :
    matchExpPart ('e' :: (sgn ++ d) ++ rest) = some ('e' :: (sgn ++ d), rest) := by
  obtain ⟨dh, dt, rfl⟩ : ∃ dh dt, d = dh :: dt := by
    cases d with
    | nil => exact absurd rfl hd
    | cons dh dt => exact ⟨dh, dt, rfl⟩
  have hdh : dh.isDigit = true := hdig dh (by simp)
  have hall : ∀ a ∈ dh :: dt, Char.isDigit a := fun a ha => hdig a ha
  have hrtw : rest.takeWhile Char.isDigit = [] := by
    cases rest with
    | nil => rfl
    | cons c0 u => rw [List.takeWhile_cons_of_neg]; simp [hrest c0 rfl]
  have hrdw : rest.dropWhile Char.isDigit = rest := by
    cases rest with
    | nil => rfl
    | cons c0 u => rw [List.dropWhile_cons_of_neg]; simp [hrest c0 rfl]
  have htw : List.takeWhile Char.isDigit (dh :: (dt ++ rest)) = dh :: dt := by
    rw [← List.cons_append, List.takeWhile_append_of_pos hall, hrtw, List.append_nil]
  have hdw : List.dropWhile Char.isDigit (dh :: (dt ++ rest)) = rest := by
    rw [← List.cons_append, List.dropWhile_append_of_pos hall, hrdw]
  rcases hsgn with rfl | rfl | rfl
  · have hcond : ¬(dh = '+' ∨ dh = '-') := by
      rintro (rfl | rfl) <;> simp at hdh
    simp only [matchExpPart, List.nil_append, List.cons_append, List.head?_cons,
      List.tail_cons, Option.some.injEq, eq_self_iff_true, if_true, if_neg hcond]
    simp [htw, hdw]
  · simp only [matchExpPart, List.cons_append, List.nil_append, List.head?_cons,
      List.tail_cons, Option.some.injEq, eq_self_iff_true, true_or, if_true,
      List.take_succ_cons, List.take_zero, List.length_cons, List.length_nil,
      List.drop_succ_cons, List.drop_zero]
    simp [htw, hdw]
  · simp only [matchExpPart, List.cons_append, List.nil_append, List.head?_cons,
      List.tail_cons, Option.some.injEq, eq_self_iff_true, or_true, if_true,
      List.take_succ_cons, List.take_zero, List.length_cons, List.length_nil,
      List.drop_succ_cons, List.drop_zero]
    simp [htw, hdw]

theorem mul_zero_complex (x : Complex) : x.mul ⟨0, 0⟩ = ⟨0, 0⟩ := by
  simp [Complex.mul]

theorem natPowLoop_succ (a : Complex) (k : Nat) :
    Complex.natPowLoop a (k + 1) = (Complex.natPowLoop a k).mul a := by
  simp [Complex.natPowLoop, List.range_succ]

theorem natPowLoop_zero_base (k : Nat) (hk : 1 ≤ k) :
    Complex.natPowLoop ⟨0, 0⟩ k = ⟨0, 0⟩ := by
  obtain ⟨m, rfl⟩ : ∃ m, k = m + 1 := ⟨k - 1, by omega⟩
  rw [natPowLoop_succ, mul_zero_complex]

theorem intercalate_go_append (s : String) (more : List String) :
    ∀ x y : String, String.intercalate.go (x ++ y) s more = x ++ String.intercalate.go y s more := by
  induction more with
  | nil => intro x y; rfl
  | cons c cs ih =>
      intro x y
      have h : x ++ y ++ s ++ c = x ++ (y ++ s ++ c) := by
        rw [String.append_assoc, String.append_assoc, String.append_assoc]
      calc String.intercalate.go (x ++ y) s (c :: cs)
          = String.intercalate.go (x ++ y ++ s ++ c) s cs := rfl
        _ = String.intercalate.go (x ++ (y ++ s ++ c)) s cs := by rw [h]
        _ = x ++ String.intercalate.go (y ++ s ++ c) s cs := ih x _
        _ = x ++ String.intercalate.go y s (c :: cs) := rfl

theorem intercalate_cons_cons (s a b : String) (l : List String) :
    String.intercalate s (a :: b :: l) = a ++ s ++ String.intercalate s (b :: l) := by
  show String.intercalate.go (a ++ s ++ b) s l = a ++ s ++ String.intercalate.go b s l
  exact intercalate_go_append s l (a ++ s) b

theorem astToLispArgs_eq_intercalate (args : List AST) :
    astToLispArgs args = String.intercalate " " (args.map astToLisp) := by
  induction args with
  | nil => rfl
  | cons a rest ih =>
      cases rest with
      | nil => rfl
      | cons b more =>
          rw [astToLispArgs, ih]
          simp only [List.map_cons]
          rw [intercalate_cons_cons]
          simp

/-- Complete case analysis of `afterMantissa`. -/
theorem afterMantissa_cases (tok r : List Char) :
    (matchExpPart r = none ∧
      ((∃ r3, r = 'i' :: r3 ∧ afterMantissa tok r = (tok ++ ['i'], r3)) ∨
       (r.head? ≠ some 'i' ∧ afterMantissa tok r = (tok, r)))) ∨
    (∃ e rr, matchExpPart r = some (e, rr) ∧
      ((∃ r3, rr = 'i' :: r3 ∧ afterMantissa tok r = (tok ++ e ++ ['i'], r3)) ∨
       (rr.head? ≠ some 'i' ∧ afterMantissa tok r = (tok ++ e, rr)))) := by
  cases hexp : matchExpPart r with
  | none =>
      left
      refine ⟨rfl, ?_⟩
      by_cases hi : r.head? = some 'i'
      · left
        obtain ⟨r3, rfl⟩ : ∃ r3, r = 'i' :: r3 := by
          cases r with
          | nil => simp at hi
          | cons a as => injection hi with hi; exact ⟨as, by rw [hi]⟩
        exact ⟨r3, rfl, by simp [afterMantissa, hexp]⟩
      · exact Or.inr ⟨hi, by simp [afterMantissa, hexp, hi]⟩
  | some q =>
      right
      obtain ⟨e, rr⟩ := q
      refine ⟨e, rr, rfl, ?_⟩
      by_cases hi : rr.head? = some 'i'
      · left
        obtain ⟨r3, rfl⟩ : ∃ r3, rr = 'i' :: r3 := by
          cases rr with
          | nil => simp at hi
          | cons a as => injection hi with hi; exact ⟨as, by rw [hi]⟩
        exact ⟨r3, rfl, by simp [afterMantissa, hexp]⟩
      · exact Or.inr ⟨hi, by simp [afterMantissa, hexp, hi]⟩

/-- A string whose head is not `e` has no exponent part. -/
theorem matchExpPart_none {s : List Char} (h : s.head? ≠ some 'e') :
    matchExpPart s = none := by
  unfold matchExpPart
  rw [if_neg h]

/-- Extension of a successful exponent-part match by extra input. -/
theorem matchExpPart_ext {s e rr : List Char} (h : matchExpPart s = some (e, rr))
    (t : List Char)
    (ht : rr = [] → ∀ c0, t.head? = some c0 → c0.isDigit = false) :
    matchExpPart (s ++ t) = some (e, rr ++ t) := by
  obtain ⟨sgn, d, hsgn, hd, hdig, he, hs, hr⟩ := matchExpPart_some h
  have hrest : ∀ c0, (rr ++ t).head? = some c0 → c0.isDigit = false := by
    intro c0 hc0
    cases rr with
    | nil => exact ht rfl c0 (by simpa using hc0)
    | cons x xs => exact hr c0 (by simpa using hc0)
  have hb := matchExpPart_build sgn d (rr ++ t) hsgn hd hdig hrest
  rw [hs, he]
  simp only [List.cons_append, List.append_assoc]
  simpa using hb

/-- Extension of a complete `afterMantissa` by a separator character. -/
theorem afterMantissa_ext {tok tok2 r : List Char}
    (h : afterMantissa tok r = (tok2, []))
    {c0 : Char} (hdig : c0.isDigit = false) (he : c0 ≠ 'e') (hi : c0 ≠ 'i')
    (u : List Char) :
    afterMantissa tok (r ++ c0 :: u) = (tok2, c0 :: u) := by
  have hnone : matchExpPart (c0 :: u) = none :=
    matchExpPart_none (fun hc => he (Option.some.inj hc))
  rcases afterMantissa_cases tok r with ⟨hexp, hca | hcb⟩ | ⟨e, rr, hexp, hca | hcb⟩
  · obtain ⟨r3, rfl, heq⟩ := hca
    rw [heq] at h
    injection h with h1 h2
    subst h2
    simp [afterMantissa, matchExpPart_none (by simp : ('i' :: c0 :: u).head? ≠ some 'e'), ← h1]
  · obtain ⟨hhead, heq⟩ := hcb
    rw [heq] at h
    injection h with h1 h2
    subst h2
    simp [afterMantissa, hnone, ← h1, hi]
  · obtain ⟨r3, rfl, heq⟩ := hca
    rw [heq] at h
    injection h with h1 h2
    subst h2
    have hext := matchExpPart_ext hexp (c0 :: u) (by intro hc; exact absurd hc (by simp))
    simp only [List.cons_append, List.nil_append] at hext
    simp [afterMantissa, hext, ← h1]
  · obtain ⟨hhead, heq⟩ := hcb
    rw [heq] at h
    injection h with h1 h2
    subst h2
    have hext := matchExpPart_ext hexp (c0 :: u)
      (by intro _ d0 hd0; injection hd0 with hd0; rw [← hd0]; exact hdig)
    simp only [List.nil_append] at hext
    simp [afterMantissa, hext, ← h1, hi]

/-- An input whose head is neither a digit nor a dot never matches the
number alternative. -/
theorem matchNumber_none_head {c0 : Char} (hdig : c0.isDigit = false) (hdot : c0 ≠ '.')
    (rest : List Char) : matchNumber (c0 :: rest) = none := by
  have htw : (c0 :: rest).takeWhile Char.isDigit = [] := by
    rw [List.takeWhile_cons_of_neg]; simp [hdig]
  have hdw : (c0 :: rest).dropWhile Char.isDigit = c0 :: rest := by
    rw [List.dropWhile_cons_of_neg]; simp [hdig]
  simp only [matchNumber, htw, hdw]
  rw [if_neg (show ¬((c0 :: rest).head? = some '.') from
    fun hc => hdot (Option.some.inj hc))]
  rfl

/-- A number token that consumes its whole input still matches exactly
itself when followed by a separator character (one that is not a digit
and none of `.`, `e`, `i`). -/
theorem matchNumber_ext {s : List Char} (h : matchNumber s = some (s, []))
    {c0 : Char} (hdig : c0.isDigit = false) (hdot : c0 ≠ '.') (he : c0 ≠ 'e')
    (hi : c0 ≠ 'i') (u : List Char) :
    matchNumber (s ++ c0 :: u) = some (s, c0 :: u) := by
  have hcdt : (c0 :: u).takeWhile Char.isDigit = [] := by
    rw [List.takeWhile_cons_of_neg]; simp [hdig]
  have hcdd : (c0 :: u).dropWhile Char.isDigit = c0 :: u := by
    rw [List.dropWhile_cons_of_neg]; simp [hdig]
  cases hr1 : s.dropWhile Char.isDigit with
  | nil =>
      have hall := List.dropWhile_eq_nil_iff.mp hr1
      have hs0 : s ≠ [] := by
        intro h0
        subst h0
        simp [matchNumber] at h
      have htwx : (s ++ c0 :: u).takeWhile Char.isDigit = s := by
        rw [List.takeWhile_append_of_pos hall, hcdt, List.append_nil]
      have hdwx : (s ++ c0 :: u).dropWhile Char.isDigit = c0 :: u := by
        rw [List.dropWhile_append_of_pos hall, hcdd]
      have htws : s.takeWhile Char.isDigit = s := List.takeWhile_eq_self_iff.mpr hall
      simp only [matchNumber, htwx, hdwx]
      rw [if_neg (show ¬((c0 :: u).head? = some '.') from
        fun hc => hdot (Option.some.inj hc))]
      rw [if_neg (by simp [List.isEmpty_iff]; exact hs0)]
      have ham : afterMantissa s [] = (s, []) := by
        simp [afterMantissa, matchExpPart_none (by simp : ([] : List Char).head? ≠ some 'e')]
      have hx1 := afterMantissa_ext ham hdig he hi u
      simp only [List.nil_append] at hx1
      rw [hx1]
  | cons x xs =>
      have hx : x.isDigit = false :=
        head_dropWhile_not Char.isDigit s (by rw [hr1]; rfl)
      have hstw : (s ++ c0 :: u).takeWhile Char.isDigit = s.takeWhile Char.isDigit ∧
          (s ++ c0 :: u).dropWhile Char.isDigit = x :: xs ++ c0 :: u := by
        have hgen := append_takeWhile_of_stop Char.isDigit (A := s) (B := c0 :: u)
          (by rw [hr1]; simp)
        rw [hr1] at hgen
        simpa using hgen
      simp only [matchNumber] at h
      rw [hr1] at h
      simp only [matchNumber, hstw.1, hstw.2]
      by_cases hx0 : x = '.'
      · subst hx0
        rw [if_pos (show ('.' :: xs).head? = some '.' from rfl)] at h
        simp only [List.tail_cons] at h
        rw [if_pos (show (('.' :: xs ++ c0 :: u) : List Char).head? = some '.' from rfl)]
        simp only [List.cons_append, List.tail_cons]
        by_cases hd2 : (xs.takeWhile Char.isDigit).isEmpty
        · rw [if_pos hd2] at h
          by_cases hd1 : (s.takeWhile Char.isDigit).isEmpty
          · rw [if_pos hd1] at h; exact absurd h (by simp)
          · rw [if_neg hd1] at h
            injection h with hp
            injection hp with h1 h2
            exact absurd h2 (by simp)
        · rw [if_neg hd2] at h
          injection h with hp
          cases hr2 : xs.dropWhile Char.isDigit with
          | nil =>
              have hall2 := List.dropWhile_eq_nil_iff.mp hr2
              have hd2eq : xs.takeWhile Char.isDigit = xs :=
                List.takeWhile_eq_self_iff.mpr hall2
              have h2tw : (xs ++ c0 :: u).takeWhile Char.isDigit = xs := by
                rw [List.takeWhile_append_of_pos hall2, hcdt, List.append_nil]
              have h2dw : (xs ++ c0 :: u).dropWhile Char.isDigit = c0 :: u := by
                rw [List.dropWhile_append_of_pos hall2, hcdd]
              rw [h2tw, h2dw]
              rw [if_neg (by rw [hd2eq] at hd2; exact hd2)]
              rw [hr2, hd2eq] at hp
              have hx2 := afterMantissa_ext hp hdig he hi u
              simp only [List.nil_append] at hx2
              rw [hx2]
          | cons y ys =>
              have h2s : (xs ++ c0 :: u).takeWhile Char.isDigit = xs.takeWhile Char.isDigit ∧
                  (xs ++ c0 :: u).dropWhile Char.isDigit = y :: ys ++ c0 :: u := by
                have hgen := append_takeWhile_of_stop Char.isDigit (A := xs) (B := c0 :: u)
                  (by rw [hr2]; simp)
                rw [hr2] at hgen
                simpa using hgen
              rw [h2s.1, h2s.2]
              rw [if_neg hd2]
              rw [hr2] at hp
              have := afterMantissa_ext hp hdig he hi u
              simp only [List.cons_append] at this ⊢
              rw [this]
      · rw [if_neg (show ¬((x :: xs).head? = some '.') from
          fun hc => hx0 (Option.some.inj hc))] at h
        rw [if_neg (show ¬(((x :: xs ++ c0 :: u) : List Char).head? = some '.') from
          fun hc => hx0 (Option.some.inj hc))]
        by_cases hd1 : (s.takeWhile Char.isDigit).isEmpty
        · rw [if_pos hd1] at h; exact absurd h (by simp)
        · rw [if_neg hd1] at h
          rw [if_neg hd1]
          injection h with hp
          have := afterMantissa_ext hp hdig he hi u
          simp only [List.cons_append] at this ⊢
          rw [this]

/-- An identifier token that consumes its whole input still matches
exactly itself when followed by a non-word character. -/
theorem matchIdent_ext {s : List Char} (h : matchIdent s = some (s, []))
    {c0 : Char} (hw : isWordChar c0 = false) (u : List Char) :
    matchIdent (s ++ c0 :: u) = some (s, c0 :: u) := by
  cases s with
  | nil => simp [matchIdent] at h
  | cons a as =>
      simp only [matchIdent] at h
      simp only [List.cons_append, matchIdent]
      by_cases ha : a.isAlpha || a = '_'
      · rw [if_pos ha] at h
        rw [if_pos ha]
        injection h with hp
        injection hp with h1 h2
        have hall : ∀ x ∈ as, isWordChar x := List.dropWhile_eq_nil_iff.mp h2
        have htw : (as ++ c0 :: u).takeWhile isWordChar = as := by
          rw [List.takeWhile_append_of_pos hall,
            List.takeWhile_cons_of_neg (by simp [hw]), List.append_nil]
        have hdw : (as ++ c0 :: u).dropWhile isWordChar = c0 :: u := by
          rw [List.dropWhile_append_of_pos hall,
            List.dropWhile_cons_of_neg (by simp [hw])]
        rw [htw, hdw]
      · rw [if_neg ha] at h
        exact absurd h (by simp)

/-- An input whose head is a letter or underscore never matches the
number alternative (letters are not digits and not the dot). -/
theorem isAlpha_not_digit {c : Char} (h : c.isAlpha = true) : c.isDigit = false := by
  cases hd : c.isDigit with
  | false => rfl
  | true =>
      exfalso
      simp only [Char.isDigit, Bool.and_eq_true, decide_eq_true_eq, ge_iff_le] at hd
      simp only [Char.isAlpha, Char.isUpper, Char.isLower, Bool.or_eq_true,
        Bool.and_eq_true, decide_eq_true_eq, ge_iff_le] at h
      rcases h with h | h
      · exact absurd (UInt32.le_trans h.1 hd.2) (by decide)
      · exact absurd (UInt32.le_trans h.1 hd.2) (by decide)

theorem matchNumber_none_of_identHead {c0 : Char} (h : c0.isAlpha || c0 = '_')
    (rest : List Char) : matchNumber (c0 :: rest) = none := by
  have hsplit : c0.isAlpha = true ∨ c0 = '_' := by simpa using h
  have hd : c0.isDigit = false := by
    rcases hsplit with ha | ha
    · exact isAlpha_not_digit ha
    · subst ha; decide
  have hdot : c0 ≠ '.' := by
    rcases hsplit with ha | ha
    · intro hc; subst hc; simp at ha
    · subst ha; decide
  exact matchNumber_none_head hd hdot rest

/-! ## Character-set lemmas for the tokenizer -/

theorem matchExpPart_chars {s e rr : List Char} (h : matchExpPart s = some (e, rr)) :
    ∀ c ∈ e, tokenChar c = true := by
  obtain ⟨sgn, d, hsgn, _, hdig, he, _, _⟩ := matchExpPart_some h
  intro c hc
  rw [he] at hc
  rcases List.mem_cons.mp hc with rfl | hc
  · decide
  · rcases List.mem_append.mp hc with hc | hc
    · rcases hsgn with rfl | rfl | rfl
      · simp at hc
      · simp at hc; subst hc; decide
      · simp at hc; subst hc; decide
    · exact tokenChar_of_digit (hdig c hc)

theorem afterMantissa_chars {tok r tok2 r2 : List Char}
    (h : afterMantissa tok r = (tok2, r2))
    (htok : ∀ c ∈ tok, tokenChar c = true) : ∀ c ∈ tok2, tokenChar c = true := by
  rcases afterMantissa_cases tok r with ⟨hexp, hca | hcb⟩ | ⟨e, rr, hexp, hca | hcb⟩
  · obtain ⟨r3, hr, heq⟩ := hca
    rw [heq] at h
    injection h with h1 _
    rw [← h1]
    intro c hc
    rcases List.mem_append.mp hc with hc | hc
    · exact htok c hc
    · simp at hc; subst hc; decide
  · obtain ⟨_, heq⟩ := hcb
    rw [heq] at h
    injection h with h1 _
    rw [← h1]
    exact htok
  · obtain ⟨r3, hr, heq⟩ := hca
    rw [heq] at h
    injection h with h1 _
    rw [← h1]
    intro c hc
    rcases List.mem_append.mp hc with hc | hc
    · rcases List.mem_append.mp hc with hc | hc
      · exact htok c hc
      · exact matchExpPart_chars hexp c hc
    · simp at hc; subst hc; decide
  · obtain ⟨_, heq⟩ := hcb
    rw [heq] at h
    injection h with h1 _
    rw [← h1]
    intro c hc
    rcases List.mem_append.mp hc with hc | hc
    · exact htok c hc
    · exact matchExpPart_chars hexp c hc

theorem matchNumber_chars {s tok rest : List Char}
    (h : matchNumber s = some (tok, rest)) : ∀ c ∈ tok, tokenChar c = true := by
  have hdigs : ∀ (l : List Char), ∀ c ∈ l.takeWhile Char.isDigit, tokenChar c = true :=
    fun l c hc => tokenChar_of_digit (List.mem_takeWhile_imp hc)
  simp only [matchNumber] at h
  by_cases hdot : (s.dropWhile Char.isDigit).head? = some '.'
  · rw [if_pos hdot] at h
    by_cases hd2 : (((s.dropWhile Char.isDigit).tail).takeWhile Char.isDigit).isEmpty
    · rw [if_pos hd2] at h
      by_cases hd1 : (s.takeWhile Char.isDigit).isEmpty
      · rw [if_pos hd1] at h; exact absurd h (by simp)
      · rw [if_neg hd1] at h
        injection h with h1
        injection h1 with h1 _
        rw [← h1]
        exact hdigs s
    · rw [if_neg hd2] at h
      injection h with h1
      refine afterMantissa_chars h1 ?_
      intro c hc
      rcases List.mem_append.mp hc with hc | hc
      · exact hdigs s c hc
      · rcases List.mem_cons.mp hc with rfl | hc
        · decide
        · exact hdigs _ c hc
  · rw [if_neg hdot] at h
    by_cases hd1 : (s.takeWhile Char.isDigit).isEmpty
    · rw [if_pos hd1] at h; exact absurd h (by simp)
    · rw [if_neg hd1] at h
      injection h with h1
      exact afterMantissa_chars h1 (hdigs s)

theorem matchIdent_chars {s tok rest : List Char}
    (h : matchIdent s = some (tok, rest)) : ∀ c ∈ tok, tokenChar c = true := by
  cases s with
  | nil => simp [matchIdent] at h
  | cons c0 cs =>
      simp only [matchIdent] at h
      by_cases hc0 : c0.isAlpha || c0 = '_'
      · rw [if_pos hc0] at h
        injection h with h1
        injection h1 with h1 _
        rw [← h1]
        intro c hc
        rcases List.mem_cons.mp hc with rfl | hc
        · refine tokenChar_of_word ?_
          rcases (by simpa using hc0 : c.isAlpha = true ∨ c = '_') with ha | ha
          · simp [isWordChar, ha]
          · simp [isWordChar, ha]
        · exact tokenChar_of_word (List.mem_takeWhile_imp hc)
      · rw [if_neg hc0] at h
        exact absurd h (by simp)

theorem tokenChar_of_opChar {c : Char} (h : isOpChar c = true) : tokenChar c = true := by
  simp only [isOpChar] at h
  rcases (by simpa using h :
      ((((((c = '(' ∨ c = ')') ∨ c = '+') ∨ c = '-') ∨ c = '*') ∨ c = '/') ∨ c = ',')) with
    (((((rfl | rfl) | rfl) | rfl) | rfl) | rfl) | rfl <;> decide

theorem matchSymbol_chars {s tok rest : List Char}
    (h : matchSymbol s = some (tok, rest)) : ∀ c ∈ tok, tokenChar c = true := by
  simp only [matchSymbol] at h
  by_cases h1 : s.head? = some '*' ∧ s.tail.head? = some '*'
  · rw [if_pos h1] at h
    injection h with hh
    injection hh with hh _
    rw [← hh]
    decide
  · rw [if_neg h1] at h
    by_cases h2 : s.head? = some '^'
    · rw [if_pos h2] at h
      injection h with hh
      injection hh with hh _
      rw [← hh]
      decide
    · rw [if_neg h2] at h
      cases s with
      | nil => exact absurd h (by simp)
      | cons c0 cs =>
          have h4 : (if isOpChar c0 then some ([c0], cs) else none) = some (tok, rest) := h
          by_cases h3 : isOpChar c0
          · rw [if_pos h3] at h4
            injection h4 with hh
            injection hh with hh _
            rw [← hh]
            intro c hc
            simp only [List.mem_singleton] at hc
            subst hc
            exact tokenChar_of_opChar h3
          · rw [if_neg h3] at h4
            exact absurd h4 (by simp)

theorem matchToken_chars {s tok rest : List Char}
    (h : matchToken s = some (tok, rest)) : ∀ c ∈ tok, tokenChar c = true := by
  unfold matchToken at h
  cases hn : matchNumber s with
  | some r =>
      rw [hn] at h
      injection h with h1
      obtain ⟨t, r2⟩ := r
      injection h1 with ha hb
      subst ha
      exact matchNumber_chars hn
  | none =>
      rw [hn] at h
      cases hi : matchIdent s with
      | some r =>
          rw [hi] at h
          injection h with h1
          obtain ⟨t, r2⟩ := r
          injection h1 with ha hb
          subst ha
          exact matchIdent_chars hi
      | none =>
          rw [hi] at h
          exact matchSymbol_chars h

theorem scanFuel_chars :
    ∀ (fuel : Nat) (s : List Char), ∀ tok ∈ scanFuel fuel s, ∀ c ∈ tok, tokenChar c = true := by
  intro fuel
  induction fuel with
  | zero => intro s tok htok; simp [scanFuel] at htok
  | succ n ih =>
      intro s tok htok
      rw [scanFuel] at htok
      revert htok
      cases hm : matchToken (dropWs s) with
      | none => intro htok; simp at htok
      | some p =>
          obtain ⟨t, r⟩ := p
          intro htok
          rcases List.mem_cons.mp htok with rfl | htok
          · exact matchToken_chars hm
          · exact ih r tok htok

/-! ## Lexing the rendered output -/

theorem space_not_tokenChar {c : Char} (h : isSpaceChar c = true) : tokenChar c = false := by
  have hmem : c ∈ jsWhitespace := by simpa [isSpaceChar] using h
  fin_cases hmem <;> decide

theorem tokenChar_not_space {c : Char} (h : tokenChar c = true) : isSpaceChar c = false := by
  cases hws : isSpaceChar c with
  | false => rfl
  | true =>
      have := space_not_tokenChar hws
      rw [h] at this
      exact absurd this (by simp)

theorem matchNumber_ne_nil {tok rest : List Char} {s : List Char}
    (h : matchNumber s = some (tok, rest)) : s ≠ [] := by
  intro h0
  subst h0
  simp [matchNumber] at h

theorem dropWs_eq_of_head {c : Char} (hc : isSpaceChar c = false) (l : List Char) :
    dropWs (c :: l) = c :: l := by
  unfold dropWs
  rw [List.dropWhile_cons_of_neg]
  simp [hc]

theorem scanFuel_step {s tok rest : List Char} (fuel : Nat)
    (hm : matchToken (dropWs s) = some (tok, rest)) :
    scanFuel (fuel + 1) s = tok :: scanFuel fuel rest := by
  rw [scanFuel]
  simp only [hm]

theorem scanFuel_head {c : Char} {X tok rest : List Char} (fuel : Nat)
    (hc : isSpaceChar c = false) (hm : matchToken (c :: X) = some (tok, rest)) :
    scanFuel (fuel + 1) (c :: X) = tok :: scanFuel fuel rest :=
  scanFuel_step fuel (by rw [dropWs_eq_of_head hc]; exact hm)

theorem scanFuel_ws (f : Nat) (X : List Char) : scanFuel f (' ' :: X) = scanFuel f X := by
  cases f with
  | zero => rfl
  | succ n => rfl

theorem scanFuel_nil (f : Nat) : scanFuel f [] = [] := by
  cases f with
  | zero => rfl
  | succ n => rfl

/-- Scanning the rendering of a fragment AST followed by a separator
(or the end of input) yields exactly its token sequence, then continues
with the remainder.  Fuel accounting: one unit per token. -/
theorem scanFuel_cat {t : AST} (hg : Good t) :
    ∀ (rest : List Char),
      (rest = [] ∨ (∃ u, rest = ' ' :: u) ∨ (∃ u, rest = ')' :: u)) →
      ∀ fuel, scanFuel (fuel + (fragTokens t).length) ((astToLisp t).data ++ rest) =
        (fragTokens t).map String.data ++ scanFuel fuel rest := by
  induction hg with
  | lit v hv =>
      intro rest hrest fuel
      have hm : matchNumber v.data = some (v.data, []) := by
        simpa [isNumberToken] using hv
      obtain ⟨c, cs, hvd⟩ : ∃ c cs, v.data = c :: cs := by
        cases hveq : v.data with
        | nil => exact absurd hveq (matchNumber_ne_nil hm)
        | cons c cs => exact ⟨c, cs, rfl⟩
      have hcs : isSpaceChar c = false :=
        tokenChar_not_space (matchNumber_chars hm c (by rw [hvd]; simp))
      have hmx : matchNumber (v.data ++ rest) = some (v.data, rest) := by
        rcases hrest with rfl | ⟨u, rfl⟩ | ⟨u, rfl⟩
        · rw [List.append_nil]; exact hm
        · exact matchNumber_ext hm (by decide) (by decide) (by decide) (by decide) u
        · exact matchNumber_ext hm (by decide) (by decide) (by decide) (by decide) u
      have hmt : matchToken (v.data ++ rest) = some (v.data, rest) := by
        unfold matchToken
        rw [hmx]
      have hstep := scanFuel_head (c := c) (X := cs ++ rest) fuel hcs
        (by rw [← List.cons_append, ← hvd]; exact hmt)
      show scanFuel (fuel + 1) (v.data ++ rest) = [v.data] ++ scanFuel fuel rest
      rw [hvd, List.cons_append, hstep, ← hvd]
      rfl
  | varG n hn =>
      intro rest hrest fuel
      have hm : matchIdent n.data = some (n.data, []) := by
        simpa [isIdentifier] using hn
      obtain ⟨a, as, hnd, hcond⟩ :
          ∃ a as, n.data = a :: as ∧ (a.isAlpha || a = '_') = true := by
        cases hneq : n.data with
        | nil => rw [hneq] at hm; simp [matchIdent] at hm
        | cons a as =>
            rw [hneq] at hm
            by_cases hcond : a.isAlpha || a = '_'
            · exact ⟨a, as, rfl, hcond⟩
            · rw [matchIdent, if_neg hcond] at hm
              exact absurd hm (by simp)

      have hcs : isSpaceChar a = false :=
        tokenChar_not_space (matchIdent_chars hm a (by rw [hnd]; simp))
      have hnum : matchNumber (n.data ++ rest) = none := by
        rw [hnd, List.cons_append]
        exact matchNumber_none_of_identHead hcond _
      have hmx : matchIdent (n.data ++ rest) = some (n.data, rest) := by
        rcases hrest with rfl | ⟨u, rfl⟩ | ⟨u, rfl⟩
        · rw [List.append_nil]; exact hm
        · exact matchIdent_ext hm (by decide) u
        · exact matchIdent_ext hm (by decide) u
      have hmt : matchToken (n.data ++ rest) = some (n.data, rest) := by
        unfold matchToken
        rw [hnum, hmx]
      have hstep := scanFuel_head (c := a) (X := as ++ rest) fuel hcs
        (by rw [← List.cons_append, ← hnd]; exact hmt)
      show scanFuel (fuel + 1) (n.data ++ rest) = [n.data] ++ scanFuel fuel rest
      rw [hnd, List.cons_append, hstep, ← hnd]
      rfl
  | opG o l r ho hl hr hvp ihl ihr =>
      intro rest hrest fuel
      have hdata : (astToLisp (.op o [l, r])).data ++ rest =
          '(' :: (o.data ++ ' ' :: ((astToLisp l).data ++
            (' ' :: ((astToLisp r).data ++ ')' :: rest)))) := by
        show ("(" ++ o ++ " " ++ astToLispArgs [l, r] ++ ")").data ++ rest = _
        show ("(" ++ o ++ " " ++ (astToLisp l ++ " " ++ astToLispArgs [r]) ++ ")").data
          ++ rest = _
        show ("(" ++ o ++ " " ++ (astToLisp l ++ " " ++ astToLisp r) ++ ")").data
          ++ rest = _
        simp [String.data_append]
      have hft : fragTokens (AST.op o [l, r]) =
          "(" :: o :: ((fragTokens l ++ (fragTokens r ++ [])) ++ [")"]) := rfl
      have hlen : (fragTokens (.op o [l, r])).length =
          (fragTokens l).length + (fragTokens r).length + 3 := by
        rw [hft]
        simp
        omega
      set nl := (fragTokens l).length with hnl
      set nr := (fragTokens r).length with hnr
      have hop : ∀ (X : List Char), matchToken (o.data ++ ' ' :: X) =
          some (o.data, ' ' :: X) := by
        intro X
        rcases (by simpa [binOps] using ho :
            o = "+" ∨ o = "*" ∨ o = "/" ∨ o = "**" ∨ o = "^") with
          rfl | rfl | rfl | rfl | rfl <;> rfl
      have hone : 1 ≤ o.data.length := by
        rcases (by simpa [binOps] using ho :
            o = "+" ∨ o = "*" ∨ o = "/" ∨ o = "**" ∨ o = "^") with
          rfl | rfl | rfl | rfl | rfl <;> decide
      obtain ⟨oc, ocs, hod⟩ : ∃ oc ocs, o.data = oc :: ocs := by
        cases hoe : o.data with
        | nil => rw [hoe] at hone; simp at hone
        | cons oc ocs => exact ⟨oc, ocs, rfl⟩
      rw [hdata, hlen]
      have e1 : fuel + (nl + nr + 3) = (fuel + nl + nr + 2) + 1 := by omega
      rw [e1, scanFuel_head _ (by decide)
        (rfl : matchToken ('(' :: (o.data ++ ' ' :: ((astToLisp l).data ++
          (' ' :: ((astToLisp r).data ++ ')' :: rest))))) =
          some (['('], o.data ++ ' ' :: ((astToLisp l).data ++
            (' ' :: ((astToLisp r).data ++ ')' :: rest)))))]
      have hocs : isSpaceChar oc = false := by
        rcases (by simpa [binOps] using ho :
            o = "+" ∨ o = "*" ∨ o = "/" ∨ o = "**" ∨ o = "^") with
          rfl | rfl | rfl | rfl | rfl <;>
          (injection hod with h1 _
           rw [← h1]
           decide)
      have e2 : fuel + nl + nr + 2 = (fuel + nl + nr + 1) + 1 := by omega
      have hstep2 := scanFuel_head (c := oc)
        (X := ocs ++ ' ' :: ((astToLisp l).data ++ (' ' :: ((astToLisp r).data ++ ')' :: rest))))
        (fuel + nl + nr + 1) hocs
        (by rw [← List.cons_append, ← hod]
            exact hop ((astToLisp l).data ++ (' ' :: ((astToLisp r).data ++ ')' :: rest))))
      rw [hod, List.cons_append, e2, hstep2]
      have e3 : fuel + nl + nr + 1 = (fuel + nr + 1) + nl := by omega
      rw [scanFuel_ws, e3, ihl (' ' :: ((astToLisp r).data ++ ')' :: rest))
        (Or.inr (Or.inl ⟨_, rfl⟩)) (fuel + nr + 1)]
      have e4 : fuel + nr + 1 = (fuel + 1) + nr := by omega
      rw [scanFuel_ws, e4, ihr (')' :: rest) (Or.inr (Or.inr ⟨_, rfl⟩)) (fuel + 1)]
      rw [scanFuel_head fuel (by decide)
        (rfl : matchToken (')' :: rest) = some ([')'], rest))]
      rw [hft]
      simp [List.map_append]

/-- The concatenated tokens of a fragment rendering are its rendering
with the whitespace removed, so the tokenizer's coverage check passes. -/
theorem render_filter {t : AST} (hg : Good t) :
    ((fragTokens t).map String.data).flatten =
      (astToLisp t).data.filter (fun c => !isSpaceChar c) := by
  induction hg with
  | lit v hv =>
      have hm : matchNumber v.data = some (v.data, []) := by
        simpa [isNumberToken] using hv
      show v.data ++ [] = v.data.filter _
      rw [List.append_nil]
      symm
      refine List.filter_eq_self.mpr ?_
      intro c hc
      simp [tokenChar_not_space (matchNumber_chars hm c hc)]
  | varG n hn =>
      have hm : matchIdent n.data = some (n.data, []) := by
        simpa [isIdentifier] using hn
      show n.data ++ [] = n.data.filter _
      rw [List.append_nil]
      symm
      refine List.filter_eq_self.mpr ?_
      intro c hc
      simp [tokenChar_not_space (matchIdent_chars hm c hc)]
  | opG o l r ho hl hr hvp ihl ihr =>
      have hft : fragTokens (AST.op o [l, r]) =
          "(" :: o :: ((fragTokens l ++ (fragTokens r ++ [])) ++ [")"]) := rfl
      have hdata : (astToLisp (AST.op o [l, r])).data =
          '(' :: (o.data ++ ' ' :: ((astToLisp l).data ++
            (' ' :: ((astToLisp r).data ++ [')'])))) := by
        show ("(" ++ o ++ " " ++ astToLispArgs [l, r] ++ ")").data = _
        show ("(" ++ o ++ " " ++ (astToLisp l ++ " " ++ astToLispArgs [r]) ++ ")").data = _
        show ("(" ++ o ++ " " ++ (astToLisp l ++ " " ++ astToLisp r) ++ ")").data = _
        simp [String.data_append]
      have hof : o.data.filter (fun c => !isSpaceChar c) = o.data := by
        rcases (by simpa [binOps] using ho :
            o = "+" ∨ o = "*" ∨ o = "/" ∨ o = "**" ∨ o = "^") with
          rfl | rfl | rfl | rfl | rfl <;> decide
      have hpo : (!isSpaceChar '(') = true := by decide
      have hpc : (!isSpaceChar ')') = true := by decide
      have hps : (!isSpaceChar ' ') = false := by decide
      rw [hft, hdata]
      simp only [List.map_cons, List.map_append, List.flatten_cons, List.flatten_append,
        List.filter_cons, List.filter_append]
      simp [ihl, ihr, hof, hpo, hpc, hps]

/-- A fragment rendering has at least as many characters as tokens. -/
theorem numTokens_le {t : AST} (hg : Good t) :
    (fragTokens t).length ≤ (astToLisp t).data.length := by
  induction hg with
  | lit v hv =>
      have hm : matchNumber v.data = some (v.data, []) := by
        simpa [isNumberToken] using hv
      show 1 ≤ v.data.length
      cases hv2 : v.data with
      | nil => exact absurd hv2 (matchNumber_ne_nil hm)
      | cons a as => simp
  | varG n hn =>
      have hm : matchIdent n.data = some (n.data, []) := by
        simpa [isIdentifier] using hn
      show 1 ≤ n.data.length
      cases hv2 : n.data with
      | nil => rw [hv2] at hm; simp [matchIdent] at hm
      | cons a as => simp
  | opG o l r ho hl hr hvp ihl ihr =>
      have hft : fragTokens (AST.op o [l, r]) =
          "(" :: o :: ((fragTokens l ++ (fragTokens r ++ [])) ++ [")"]) := rfl
      have hdata : (astToLisp (AST.op o [l, r])).data =
          '(' :: (o.data ++ ' ' :: ((astToLisp l).data ++
            (' ' :: ((astToLisp r).data ++ [')'])))) := by
        show ("(" ++ o ++ " " ++ astToLispArgs [l, r] ++ ")").data = _
        show ("(" ++ o ++ " " ++ (astToLisp l ++ " " ++ astToLispArgs [r]) ++ ")").data = _
        show ("(" ++ o ++ " " ++ (astToLisp l ++ " " ++ astToLisp r) ++ ")").data = _
        simp [String.data_append]
      rw [hft, hdata]
      simp only [List.length_cons, List.length_append, List.length_nil]
      omega

/-- Tokenizing the rendering of a fragment AST recovers exactly its
token sequence. -/
theorem tokenize_render {t : AST} (hg : Good t) :
    tokenize (astToLisp t) = .ok (fragTokens t) := by
  have hle := numTokens_le hg
  have hsplit : (astToLisp t).data.length + 1 =
      ((astToLisp t).data.length + 1 - (fragTokens t).length) + (fragTokens t).length := by
    omega
  have hscan : scanFuel ((astToLisp t).data.length + 1) (astToLisp t).data =
      (fragTokens t).map String.data := by
    have hc := scanFuel_cat hg [] (Or.inl rfl)
      ((astToLisp t).data.length + 1 - (fragTokens t).length)
    rw [List.append_nil, scanFuel_nil, List.append_nil] at hc
    rw [hsplit]
    exact hc
  unfold tokenize
  rw [hscan]
  show (if ((fragTokens t).map String.data).flatten =
        (astToLisp t).data.filter (fun c => !isSpaceChar c) then
      Except.ok (((fragTokens t).map String.data).map List.asString)
    else Except.error CalcError.lexical) = Except.ok (fragTokens t)
  rw [if_pos (render_filter hg)]
  congr 1
  rw [List.map_map]
  have hid : (List.asString ∘ String.data) = id := funext fun s => rfl
  rw [hid, List.map_id]

/-! ## The shunting-yard pass on rendered fragments -/

theorem isNumberToken_of_ident {n : String} (hn : isIdentifier n = true) :
    isNumberToken n = false := by
  obtain ⟨a, as, hnd, hcond⟩ :
      ∃ a as, n.data = a :: as ∧ (a.isAlpha || a = '_') = true := by
    have hm : matchIdent n.data = some (n.data, []) := by
      simpa [isIdentifier] using hn
    cases hneq : n.data with
    | nil => rw [hneq] at hm; simp [matchIdent] at hm
    | cons a as =>
        rw [hneq] at hm
        by_cases hcond : a.isAlpha || a = '_'
        · exact ⟨a, as, rfl, hcond⟩
        · rw [matchIdent, if_neg hcond] at hm
          exact absurd hm (by simp)
  simp only [isNumberToken, hnd, matchNumber_none_of_identHead hcond]
  simp

theorem shunt_step_lparen (ts : List String) (out : List RPNTok)
    (ops : List StackItem) (prev : Option String) :
    shuntLoop ("(" :: ts) out ops prev = shuntLoop ts out (.str "(" :: ops) (some "(") := rfl

theorem shunt_step_op {o : String} (ho : o ∈ binOps) (ts : List String)
    (out : List RPNTok) (ops : List StackItem) (prev : Option String) :
    shuntLoop (o :: ts) out (.str "(" :: ops) prev =
      shuntLoop ts out (.str o :: .str "(" :: ops) (some o) := by
  rcases (by simpa [binOps] using ho :
      o = "+" ∨ o = "*" ∨ o = "/" ∨ o = "**" ∨ o = "^") with
    rfl | rfl | rfl | rfl | rfl <;> rfl

theorem shunt_step_rparen {o : String} (ho : o ∈ binOps) (ts : List String)
    (out : List RPNTok) (ops : List StackItem) (prev : Option String)
    (hops : ∀ f, ops.head? ≠ some (.func f)) :
    shuntLoop (")" :: ts) out (.str o :: .str "(" :: ops) prev =
      shuntLoop ts (out ++ [.opStr o]) ops (some ")") := by
  rcases (by simpa [binOps] using ho :
      o = "+" ∨ o = "*" ∨ o = "/" ∨ o = "**" ∨ o = "^") with
    rfl | rfl | rfl | rfl | rfl <;>
    (cases ops with
     | nil => rfl
     | cons item ops2 =>
         cases item with
         | str s => rfl
         | func f => exact absurd rfl (hops f))

/-- Running the token loop over the tokens of a fragment AST appends its
postfix queue to the output and leaves the operator stack untouched, for
any starting state whose stack top is not a function marker and, when
the tree is a bare variable, whose next token is not `(`. -/
theorem shuntLoop_cat {t : AST} (hg : Good t) :
    ∀ (rest : List String) (out : List RPNTok) (ops : List StackItem)
      (prev : Option String),
      (∀ n, t = AST.var n → rest.head? ≠ some "(") →
      (∀ f, ops.head? ≠ some (StackItem.func f)) →
      shuntLoop (fragTokens t ++ rest) out ops prev =
        shuntLoop rest (out ++ fragRPN t) ops (some (prevTag t)) := by
  induction hg with
  | lit v hv =>
      intro rest out ops prev hvar hops
      show shuntLoop (v :: rest) out ops prev = _
      rw [shuntLoop, if_pos hv]
      rfl
  | varG n hn =>
      intro rest out ops prev hvar hops
      show shuntLoop (n :: rest) out ops prev = _
      rw [shuntLoop,
        if_neg (show ¬(isNumberToken n = true) by
          simp [isNumberToken_of_ident hn]),
        if_pos hn, if_neg (hvar n rfl)]
      rfl
  | opG o l r ho hl hr hvp ihl ihr =>
      intro rest out ops prev hvar hops
      have hft : fragTokens (AST.op o [l, r]) ++ rest =
          "(" :: o :: (fragTokens l ++ (fragTokens r ++ (")" :: rest))) := by
        show ("(" :: o :: ((fragTokens l ++ (fragTokens r ++ [])) ++ [")"])) ++ rest = _
        simp [List.append_assoc]
      have hvarl : ∀ n2, l = AST.var n2 →
          (fragTokens r ++ (")" :: rest)).head? ≠ some "(" := by
        intro n2 hleq
        cases hr with
        | lit v2 hv2 =>
            intro hhead
            have hveq : v2 = "(" := by simpa [fragTokens] using hhead
            rw [hveq] at hv2
            exact absurd hv2 (by decide)
        | varG n3 hn3 =>
            intro hhead
            have hveq : n3 = "(" := by simpa [fragTokens] using hhead
            rw [hveq] at hn3
            exact absurd hn3 (by decide)
        | opG o2 l2 r2 ho2 hl2 hr2 hv2 =>
            exact absurd ⟨⟨n2, hleq⟩, o2, [l2, r2], rfl⟩ hvp
      rw [hft, shunt_step_lparen, shunt_step_op ho,
        ihl (fragTokens r ++ (")" :: rest)) out (.str o :: .str "(" :: ops) (some o)
          hvarl (by intro f; simp),
        ihr (")" :: rest) (out ++ fragRPN l) (.str o :: .str "(" :: ops)
          (some (prevTag l)) (by intro n2 h2; simp) (by intro f; simp),
        shunt_step_rparen ho rest (out ++ fragRPN l ++ fragRPN r) ops
          (some (prevTag r)) hops]
      have hfr : fragRPN (AST.op o [l, r]) =
          (fragRPN l ++ (fragRPN r ++ [])) ++ [.opStr o] := rfl
      rw [hfr]
      simp only [List.append_nil, List.append_assoc]
      rfl

/-- Rebuilding the AST from the postfix queue of a fragment pushes back
exactly the original tree. -/
theorem buildRPN_cat {t : AST} (hg : Good t) :
    ∀ (rest : List RPNTok) (stack : List AST),
      buildRPN (fragRPN t ++ rest) stack = buildRPN rest (t :: stack) := by
  induction hg with
  | lit v hv => intro rest stack; rfl
  | varG n hn => intro rest stack; rfl
  | opG o l r ho hl hr hvp ihl ihr =>
      intro rest stack
      have hfr : fragRPN (AST.op o [l, r]) ++ rest =
          fragRPN l ++ (fragRPN r ++ (.opStr o :: rest)) := by
        show ((fragRPN l ++ (fragRPN r ++ [])) ++ [.opStr o]) ++ rest = _
        simp [List.append_assoc]
      rw [hfr, ihl, ihr]
      rcases (by simpa [binOps] using ho :
          o = "+" ∨ o = "*" ∨ o = "/" ∨ o = "**" ∨ o = "^") with
        rfl | rfl | rfl | rfl | rfl <;> rfl

/-- Parsing the rendering of a fragment AST returns the identical AST. -/
theorem parseToAST_render {t : AST} (hg : Good t) :
    parseToAST (astToLisp t) = .ok t := by
  unfold parseToAST
  rw [tokenize_render hg]
  have hsh : shuntLoop (fragTokens t) [] [] none = .ok (fragRPN t, []) := by
    have hc := shuntLoop_cat hg [] [] [] none (by intro n hn; simp) (by intro f; simp)
    rw [List.append_nil] at hc
    simpa using hc
  show (shuntLoop (fragTokens t) [] [] none).bind _ = .ok t
  rw [hsh]
  show (buildRPN (fragRPN t) []).bind _ = .ok t
  have hb := buildRPN_cat hg [] []
  rw [List.append_nil] at hb
  rw [hb]
  rfl

/-! ## Claims -/

/-- C1 (amended): for every AST of the round-trip fragment — operators
only from `+ * / ** ^` over numeric literals and variables, with no
subtraction, no unary negation, no function calls, and no variable left
operand whose right sibling is a compound operand — `render` produces a
string that `parse` accepts again, and the re-parsed AST is identical,
hence evaluates identically under every environment and oracle. -/
theorem roundtrip_on_good_asts (t : AST) (hg : Good t) :
    ∃ t2, parseToAST (astToLisp t) = .ok t2 ∧
      ∀ (F : FloatOracle) (env : List (String × Complex)),
        evaluateAST F env t2 = evaluateAST F env t :=
  ⟨t, parseToAST_render hg, fun _ _ => rfl⟩

/-- Witness for C1 (amended): the AST of `(a+b)*2` round-trips. -/
theorem roundtrip_on_good_asts_witness :
    Good (AST.op "*" [AST.op "+" [AST.var "a", AST.var "b"], AST.literal "2"]) ∧
    ∃ t2, parseToAST (astToLisp
        (AST.op "*" [AST.op "+" [AST.var "a", AST.var "b"], AST.literal "2"])) = .ok t2 ∧
      ∀ (F : FloatOracle) (env : List (String × Complex)),
        evaluateAST F env t2 =
          evaluateAST F env
            (AST.op "*" [AST.op "+" [AST.var "a", AST.var "b"], AST.literal "2"]) := by
  have hg : Good (AST.op "*" [AST.op "+" [AST.var "a", AST.var "b"], AST.literal "2"]) := by
    refine Good.opG _ _ _ (by simp [binOps]) ?_ (Good.lit _ (by decide)) ?_
    · refine Good.opG _ _ _ (by simp [binOps]) (Good.varG _ (by decide))
        (Good.varG _ (by decide)) ?_
      rintro ⟨⟨n, hn⟩, o2, args, h2⟩
      exact AST.noConfusion h2
    · rintro ⟨⟨n, hn⟩, o2, args, h2⟩
      exact AST.noConfusion hn
  exact ⟨hg, roundtrip_on_good_asts _ hg⟩

/-- C1 counterexample: the claim fails on the AST of `1-2` — its
rendering `(- 1 2)` is rejected by `parse` (the leading `-` is read as
unary negation, leaving two items on the value stack) — and on the AST
of `conj(c)`, whose rendering `(conj c)` is likewise rejected (the
identifier `conj` is not followed by `(` and becomes a variable). -/
theorem roundtrip_fails_on_subtraction :
    parseToAST "1-2" = .ok (.op "-" [.literal "1", .literal "2"]) ∧
    astToLisp (.op "-" [.literal "1", .literal "2"]) = "(- 1 2)" ∧
    parseToAST "(- 1 2)" = .error .malformedExpression ∧
    (parseToAST "conj(c)").map astToLisp = .ok "(conj c)" ∧
    parseToAST "(conj c)" = .error .malformedExpression :=
  ⟨rfl, rfl, rfl, rfl, rfl⟩

/-- C2 (amended): whenever the input contains a character outside digits,
letters, underscore, `.`, `+`, `-`, `*`, `/`, `(`, `)`, `,`, `^`, and
whitespace, tokenize raises LexicalError.  The converse direction of the
original claim fails: some strings over the allowed characters (for
example `"."`) also raise, and the original claim omitted the
underscore. -/
theorem tokenize_raises_of_disallowed_char (input : String)
    (h : ∃ c ∈ input.data, tokenChar c = false ∧ isSpaceChar c = false) :
    tokenize input = .error .lexical := by
  obtain ⟨c, hc, htc, hws⟩ := h
  have hmem : c ∈ input.data.filter (fun c => !isSpaceChar c) :=
    List.mem_filter.mpr ⟨hc, by simp [hws]⟩
  unfold tokenize
  show (if (scanFuel (input.data.length + 1) input.data).flatten =
        input.data.filter (fun c => !isSpaceChar c) then
      Except.ok ((scanFuel (input.data.length + 1) input.data).map List.asString)
    else Except.error CalcError.lexical) = Except.error CalcError.lexical
  split
  case isTrue heq =>
    exfalso
    rw [← heq] at hmem
    obtain ⟨tok, htok, hctok⟩ := List.mem_flatten.mp hmem
    have := scanFuel_chars _ _ tok htok c hctok
    rw [htc] at this
    exact Bool.false_ne_true this
  case isFalse hne => rfl

/-- Witness for C2 (amended): `@` is outside the allowed set and the
input `2@3` fails with LexicalError. -/
theorem tokenize_raises_of_disallowed_char_witness :
    (∃ c ∈ ("2@3").data, tokenChar c = false ∧ isSpaceChar c = false) ∧
    tokenize "2@3" = .error .lexical := by
  refine ⟨⟨'@', by decide, by decide, by decide⟩, ?_⟩
  exact tokenize_raises_of_disallowed_char "2@3" ⟨'@', by decide, by decide, by decide⟩

/-- C2 counterexample: the input `.` consists only of characters of the
claim's allowed list (it contains the dot), yet tokenize raises
LexicalError, refuting the claimed equivalence. -/
theorem tokenize_dot_raises :
    (∀ c ∈ (".").data, specAllowedChar c = true) ∧ tokenize "." = .error .lexical :=
  ⟨by decide, rfl⟩

/-- C3 (amended): inside the trial loop, an evaluation error during round
`t = 0` propagates to the caller even though the budget is positive; an
error during any later round `t` does not count and the loop retries the
same round with the next random draws (without bound while fuel lasts).
This corrects the claim that an error propagates only on a non-positive
trial budget. -/
theorem equiv_checker_error_semantics (F : FloatOracle) (rand : Nat → ℚ)
    (a1 a2 : AST) (tries : Int) (tol : ℚ) (vars : List String) (fuel : Nat)
    (t : Int) (ctr : Nat) (e : CalcError)
    (htries : t < tries)
    (herr : evalPair F (mkEnv rand ctr vars).1 a1 a2 = .error e) :
    (t ≤ 0 → eqLoop F rand a1 a2 tries tol vars (fuel + 1) t ctr = some (.error e)) ∧
    (0 < t → eqLoop F rand a1 a2 tries tol vars (fuel + 1) t ctr =
        eqLoop F rand a1 a2 tries tol vars fuel t (mkEnv rand ctr vars).2) := by
  constructor
  · intro ht
    rw [eqLoop, if_pos htries]
    simp only [herr]
    rw [if_pos (by omega : t - 1 < 0)]
  · intro ht
    rw [eqLoop, if_pos htries]
    simp only [herr]
    rw [if_neg (by omega : ¬(t - 1 < 0))]

/-- Witness for C3 (amended): both conjuncts at the deterministic
expression `1/0`, whose evaluation always raises DivisionByZero: round 0
propagates the error, round 1 retries. -/
theorem equiv_checker_error_semantics_witness :
    ((0 : Int) < 6 ∧
      evalPair F0 (mkEnv (fun _ => 0) 0 []).1 (.op "/" [.literal "1", .literal "0"])
        (.op "/" [.literal "1", .literal "0"]) = .error .divisionByZero) ∧
    eqLoop F0 (fun _ => 0) (.op "/" [.literal "1", .literal "0"])
      (.op "/" [.literal "1", .literal "0"]) 6 (1 / 10 ^ 7) [] (4 + 1) 0 0 =
      some (.error .divisionByZero) ∧
    eqLoop F0 (fun _ => 0) (.op "/" [.literal "1", .literal "0"])
      (.op "/" [.literal "1", .literal "0"]) 6 (1 / 10 ^ 7) [] (4 + 1) 1 0 =
      eqLoop F0 (fun _ => 0) (.op "/" [.literal "1", .literal "0"])
        (.op "/" [.literal "1", .literal "0"]) 6 (1 / 10 ^ 7) [] 4 1
        (mkEnv (fun _ => 0) 0 []).2 := by
  have herr : evalPair F0 (mkEnv (fun _ => 0) 0 []).1 (.op "/" [.literal "1", .literal "0"])
      (.op "/" [.literal "1", .literal "0"]) = .error .divisionByZero := by
    with_unfolding_all rfl
  have h0 := equiv_checker_error_semantics F0 (fun _ => 0)
    (.op "/" [.literal "1", .literal "0"]) (.op "/" [.literal "1", .literal "0"])
    6 (1 / 10 ^ 7) [] 4 0 0 .divisionByZero (by norm_num) herr
  have h1 := equiv_checker_error_semantics F0 (fun _ => 0)
    (.op "/" [.literal "1", .literal "0"]) (.op "/" [.literal "1", .literal "0"])
    6 (1 / 10 ^ 7) [] 4 1 0 .divisionByZero (by norm_num) herr
  exact ⟨⟨by norm_num, herr⟩, h0.1 (by norm_num), h1.2 (by norm_num)⟩

/-- C3 counterexample: with the positive trial budget 6 (the default), an
evaluation error in the very first round propagates out of
`expressionsEqual` instead of being retried, refuting the claim that an
error reaches the caller only on a non-positive budget. -/
theorem equiv_checker_propagates_first_round_error :
    (0 : Int) < 6 ∧
    expressionsEqual F0 (fun _ => 0) 5
      (.op "/" [.literal "1", .literal "0"]) (.op "/" [.literal "1", .literal "0"])
      6 (1 / 10 ^ 7) = some (.error .divisionByZero) :=
  ⟨by norm_num, by with_unfolding_all rfl⟩

/-- C5: for every base and every exponent whose imaginary part is within
`1e-14` of zero and whose real part is an exact integer `n`, `pow`
computes the result by `|n|`-fold repeated multiplication of the base
(`n = 0` giving 1, since the empty loop leaves the accumulator at 1); for
negative `n` it computes the positive-exponent result and inverts it via
`div`, and therefore raises DivisionByZero when the base is zero and `n`
is negative. -/
theorem pow_integer_path (polar : Complex → Complex → Complex) (a b : Complex)
    (him : |b.im| < 1 / 10 ^ 14) (hden : b.re.den = 1) :
    (0 ≤ b.re.num →
      Complex.pow polar a b = .ok (Complex.natPowLoop a b.re.num.natAbs)) ∧
    (b.re.num < 0 →
      Complex.pow polar a b = Complex.div ⟨1, 0⟩ (Complex.natPowLoop a b.re.num.natAbs)) ∧
    (b.re.num < 0 → a = ⟨0, 0⟩ →
      Complex.pow polar a b = .error .divisionByZero) := by
  have hcond : |b.im| < 1 / 10 ^ 14 ∧ b.re.den = 1 := ⟨him, hden⟩
  refine ⟨?_, ?_, ?_⟩
  · intro hn
    rw [Complex.pow, if_pos hcond]
    rcases Nat.eq_zero_or_pos b.re.num.natAbs with h0 | hpos
    · have : b.re.num = 0 := by omega
      rw [if_pos this, this]
      rfl
    · have hne : b.re.num ≠ 0 := by omega
      rw [if_neg hne, if_pos (by omega)]
  · intro hn
    rw [Complex.pow, if_pos hcond, if_neg (by omega), if_neg (by omega)]
  · intro hn ha
    subst ha
    rw [Complex.pow, if_pos hcond, if_neg (by omega), if_neg (by omega),
      natPowLoop_zero_base _ (by omega)]
    with_unfolding_all rfl

/-- Witness for C5: exponent 3 takes the repeated-multiplication path and
yields 8 on base 2; base 0 with exponent −1 raises DivisionByZero. -/
theorem pow_integer_path_witness :
    (|((⟨3, 0⟩ : Complex)).im| < 1 / 10 ^ 14 ∧ ((⟨3, 0⟩ : Complex)).re.den = 1) ∧
    Complex.pow F0.polarPow ⟨2, 0⟩ ⟨3, 0⟩ = .ok ⟨8, 0⟩ ∧
    Complex.pow F0.polarPow ⟨0, 0⟩ ⟨-1, 0⟩ = .error .divisionByZero := by
  have h1 := pow_integer_path F0.polarPow ⟨2, 0⟩ ⟨3, 0⟩ (by norm_num) (by norm_num)
  have h2 := pow_integer_path F0.polarPow ⟨0, 0⟩ ⟨-1, 0⟩ (by norm_num) (by norm_num)
  refine ⟨⟨by norm_num, by norm_num⟩, ?_, ?_⟩
  · rw [h1.1 (by norm_num)]
    with_unfolding_all rfl
  · exact h2.2.2 (by norm_num) rfl

/-- C6: operator precedence and associativity — `2+3*4` evaluates to 14,
`(2+3)*4` to 20, and `2**3**2` to 512 (right-associative power), not 64;
these hold for every transcendental oracle since only integer exponents
occur. -/
theorem precedence_examples (F : FloatOracle) :
    evalParse F "2+3*4" [] = .ok ⟨14, 0⟩ ∧
    evalParse F "(2+3)*4" [] = .ok ⟨20, 0⟩ ∧
    evalParse F "2**3**2" [] = .ok ⟨512, 0⟩ ∧ (512 : ℚ) ≠ 64 := by
  refine ⟨?_, ?_, ?_, by norm_num⟩ <;> with_unfolding_all rfl

/-- C7: a `-` token is parsed as unary negation exactly when the previous
token is absent, an opening parenthesis, a comma, or a key of the
OPERATORS table; in that case the shunting step pushes `u-`, otherwise it
pushes binary `-`; consequently `-2+3` evaluates to 1 and `2*-3` to −6. -/
theorem unary_minus_rule (F : FloatOracle) :
    (∀ prev : Option String, minusIsUnary prev = true ↔
      (prev = none ∨ prev = some "(" ∨ prev = some "," ∨
        ∃ p inf, prev = some p ∧ OPERATORS p = some inf)) ∧
    (∀ (rest : List String) out ops prev, minusIsUnary prev = true →
      shuntLoop ("-" :: rest) out ops prev =
        shuntLoop rest (popOps ⟨6, false, 1⟩ out ops).1
          (.str "u-" :: (popOps ⟨6, false, 1⟩ out ops).2) (some "u-")) ∧
    (∀ (rest : List String) out ops prev, minusIsUnary prev = false →
      shuntLoop ("-" :: rest) out ops prev =
        shuntLoop rest (popOps ⟨2, true, 2⟩ out ops).1
          (.str "-" :: (popOps ⟨2, true, 2⟩ out ops).2) (some "-")) ∧
    evalParse F "-2+3" [] = .ok ⟨1, 0⟩ ∧
    evalParse F "2*-3" [] = .ok ⟨-6, 0⟩ := by
  refine ⟨?_, ?_, ?_, by with_unfolding_all rfl, by with_unfolding_all rfl⟩
  · intro prev
    cases prev with
    | none => simp [minusIsUnary]
    | some p =>
        constructor
        · intro h
          by_cases h1 : p = "("
          · exact Or.inr (Or.inl (by rw [h1]))
          by_cases h2 : p = ","
          · exact Or.inr (Or.inr (Or.inl (by rw [h2])))
          have hsome : (OPERATORS p).isSome := by
            simp [minusIsUnary, h1, h2] at h
            exact h
          obtain ⟨inf, hinf⟩ := Option.isSome_iff_exists.mp hsome
          exact Or.inr (Or.inr (Or.inr ⟨p, inf, rfl, hinf⟩))
        · rintro (h | h | h | ⟨q, inf, hq, hinf⟩)
          · exact absurd h (by simp)
          · obtain rfl : p = "(" := by injection h
            rfl
          · obtain rfl : p = "," := by injection h
            rfl
          · obtain rfl : q = p := by injection hq with hq; rw [hq]
            simp [minusIsUnary, hinf]
  · intro rest out ops prev hu
    rw [shuntLoop]
    simp only [hu]
    rfl
  · intro rest out ops prev hu
    rw [shuntLoop]
    simp only [hu]
    rfl

/-- C8: `div(a, b)` raises DivisionByZero if and only if `b.re² + b.im²`
is exactly zero, which for exact arithmetic happens exactly when `b` is
zero; otherwise it returns the standard complex quotient (the value `q`
with `q * b = a`); and `1/0` evaluates to DivisionByZero. -/
theorem div_raises_iff (F : FloatOracle) (a b : Complex) :
    (Complex.div a b = .error .divisionByZero ↔ b.re ^ 2 + b.im ^ 2 = 0) ∧
    (b.re ^ 2 + b.im ^ 2 = 0 ↔ b = ⟨0, 0⟩) ∧
    (∀ q, Complex.div a b = .ok q → q.mul b = a) ∧
    evalParse F "1/0" [] = .error .divisionByZero := by
  have hsq : b.re * b.re + b.im * b.im = b.re ^ 2 + b.im ^ 2 := by ring
  refine ⟨?_, ?_, ?_, by with_unfolding_all rfl⟩
  · rw [Complex.div]
    by_cases h : b.re * b.re + b.im * b.im = 0
    · simp only [if_pos h]
      simp [← hsq, h]
    · simp only [if_neg h]
      constructor
      · intro hcontra
        exact absurd hcontra (by simp)
      · intro hz
        exact absurd (hsq.trans hz) h
  · constructor
    · intro h
      have h1 : b.re = 0 := by nlinarith [sq_nonneg b.re, sq_nonneg b.im]
      have h2 : b.im = 0 := by nlinarith [sq_nonneg b.re, sq_nonneg b.im]
      cases b
      simp_all
    · intro h
      rw [h]
      norm_num
  · intro q hq
    rw [Complex.div] at hq
    by_cases h : b.re * b.re + b.im * b.im = 0
    · rw [if_pos h] at hq
      exact absurd hq (by simp)
    · rw [if_neg h] at hq
      injection hq with hq2
      rw [← hq2]
      cases a with
      | mk are aim =>
          simp only [Complex.mul, Complex.mk.injEq]
          constructor <;> (field_simp; ring)

/-- Witness for C8: division of 1 by the unit imaginary succeeds with
quotient −i, whose product with i recovers 1. -/
theorem div_raises_iff_witness :
    Complex.div ⟨1, 0⟩ ⟨0, 1⟩ = .ok ⟨0, -1⟩ ∧
    Complex.mul ⟨0, -1⟩ ⟨0, 1⟩ = ⟨1, 0⟩ := by
  have h := (div_raises_iff F0 ⟨1, 0⟩ ⟨0, 1⟩).2.2.1 ⟨0, -1⟩ (by with_unfolding_all rfl)
  exact ⟨by with_unfolding_all rfl, h⟩

/-- C9: the printer is a total function on ASTs (hence deterministic and
side-effect-free); operator and function nodes render as
`(name arg1 arg2 ...)` with single spaces; and rendering the parse of
`(a+b)*conj(c)` gives `(* (+ a b) (conj c))`. -/
theorem printer_shape :
    (∀ name args, astToLisp (.call name args) =
      "(" ++ name ++ " " ++ String.intercalate " " (args.map astToLisp) ++ ")") ∧
    (∀ o args, astToLisp (.op o args) =
      "(" ++ o ++ " " ++ String.intercalate " " (args.map astToLisp) ++ ")") ∧
    (parseToAST "(a+b)*conj(c)").map astToLisp = .ok "(* (+ a b) (conj c))" := by
  refine ⟨?_, ?_, rfl⟩
  · intro name args
    rw [astToLisp, astToLispArgs_eq_intercalate]
  · intro o args
    rw [astToLisp, astToLispArgs_eq_intercalate]

/-- C10: the bare token `i` is lexed as an identifier, so `parse("i")`
yields a Variable node whose evaluation under an empty environment is
UnboundVariable; the imaginary unit needs digits attached: `1i` and `2i`
are literals evaluating to i and 2i. -/
theorem bare_i_is_identifier (F : FloatOracle) :
    isNumberToken "i" = false ∧ isIdentifier "i" = true ∧
    parseToAST "i" = .ok (.var "i") ∧
    evalParse F "i" [] = .error (.unboundVariable "i") ∧
    parseToAST "1i" = .ok (.literal "1i") ∧
    evalParse F "1i" [] = .ok ⟨0, 1⟩ ∧
    parseToAST "2i" = .ok (.literal "2i") ∧
    evalParse F "2i" [] = .ok ⟨0, 2⟩ := by
  refine ⟨rfl, rfl, rfl, ?_, rfl, ?_, rfl, ?_⟩ <;> with_unfolding_all rfl

/-! Sanity checks: concrete evaluations of the embedded tokenizer, parser,
evaluator and equality checker on small inputs. -/

example : tokenize "2+3*4" = .ok ["2", "+", "3", "*", "4"] := rfl
example : tokenize "1e-3i + x_1" = .ok ["1e-3i", "+", "x_1"] := rfl
example : tokenize "2 @ 3" = .error .lexical := rfl
example : tokenize "1\u00A02" = .ok ["1", "2"] := rfl
example : tokenize "1\u20282" = .ok ["1", "2"] := rfl
example : tokenize "1\u30002" = .ok ["1", "2"] := rfl
example : isSpaceChar '\u00A0' = true := rfl
example : tokenChar '\u00A0' = false := rfl
example : tokenize "." = .error .lexical := rfl
example : tokenize "_" = .ok ["_"] := rfl
example : isNumberToken "2i" = true := rfl
example : isNumberToken "i" = false := rfl
example : isIdentifier "i" = true := rfl

example : parseToAST "2+3*4" =
    .ok (.op "+" [.literal "2", .op "*" [.literal "3", .literal "4"]]) := rfl
example : parseToAST "2**3**2" =
    .ok (.op "**" [.literal "2", .op "**" [.literal "3", .literal "2"]]) := rfl
example : parseToAST "-2+3" =
    .ok (.op "+" [.op "u-" [.literal "2"], .literal "3"]) := rfl
example : parseToAST "2*-3" =
    .ok (.op "*" [.literal "2", .op "u-" [.literal "3"]]) := rfl
example : (parseToAST "(a+b)*conj(c)").map astToLisp = .ok "(* (+ a b) (conj c))" := rfl
example : parseToAST "i" = .ok (.var "i") := rfl
example : parseToAST "(- 1 2)" = .error .malformedExpression := rfl
example : (parseToAST "1-2").map astToLisp = .ok "(- 1 2)" := rfl
example : parseToAST "(* a (+ b c))" = .error (.insufficientArgsOp "*") := rfl
example : parseToAST "(conj c)" = .error .malformedExpression := rfl

example : evalParse F0 "2+3*4" [] = .ok ⟨14, 0⟩ := by with_unfolding_all rfl
example : evalParse F0 "(2+3)*4" [] = .ok ⟨20, 0⟩ := by with_unfolding_all rfl
example : evalParse F0 "2**3**2" [] = .ok ⟨512, 0⟩ := by with_unfolding_all rfl
example : evalParse F0 "-2+3" [] = .ok ⟨1, 0⟩ := by with_unfolding_all rfl
example : evalParse F0 "2*-3" [] = .ok ⟨-6, 0⟩ := by with_unfolding_all rfl
example : evalParse F0 "1/0" [] = .error .divisionByZero := by with_unfolding_all rfl
example : evalParse F0 "(3+2i)*(1-4i)" [] = .ok ⟨11, -10⟩ := by with_unfolding_all rfl
example : evalParse F0 "conj(3+4i)" [] = .ok ⟨3, -4⟩ := by with_unfolding_all rfl
example : evalParse F0 "i" [] = .error (.unboundVariable "i") := by with_unfolding_all rfl
example : evalParse F0 "1i" [] = .ok ⟨0, 1⟩ := by with_unfolding_all rfl
example : expressionsEqual F0 (fun _ => 0) 5
    (.op "/" [.literal "1", .literal "0"]) (.op "/" [.literal "1", .literal "0"]) 6 (1 / 10 ^ 7) =
    some (.error .divisionByZero) := by with_unfolding_all rfl

end CalcCore
